import Mathlib

/-!
Verification of the Total Reputation Set (TRS) engine (`src/engine/trs.py`).

The engine state and its operations are embedded shallowly:
* Python dicts (insertion ordered) become association lists `List (Ident × β)`
  with unique keys; `d[k]`, `d[k] = v`, `del d[k]` become `lookupKey`,
  `setKey`, `eraseKey`, which preserve insertion order exactly as dicts do.
* Python ints become `Nat` (reputation amounts, epochs, counters are
  non-negative, assertion-enforced in the source) or `Int` for signed deltas.
* Code that can raise (KeyError, AssertionError, ZeroDivisionError) returns
  `Option`, with `none` for the raising path.
* Database insertions (`insert_reputation_difference`, `insert_trs`) are
  modelled by their observable payloads: a buffered list of delta records and
  a list of emitted snapshot rows.
-/

abbrev Ident := String

/-- Delta record buffered by `insert_reputation_difference`:
(address, epoch, reputation, type). -/
abbrev Delta := Ident × Nat × Int × String

/-- Python `d.get(i)` on an association list: first binding of key `i`. -/
def lookupKey {β : Type} (i : Ident) : List (Ident × β) → Option β
  | [] => none
  | p :: rest => if p.1 = i then some p.2 else lookupKey i rest

/-- Python `d.get(i, dflt)`. -/
def getD {β : Type} (m : List (Ident × β)) (i : Ident) (dflt : β) : β :=
  (lookupKey i m).getD dflt

/-- Python `d[i] = v`: replace in place if the key is present, else append. -/
def setKey {β : Type} (i : Ident) (v : β) : List (Ident × β) → List (Ident × β)
  | [] => [(i, v)]
  | p :: rest => if p.1 = i then (i, v) :: rest else p :: setKey i v rest

/-- Python `del d[i]` for a dict (at most one binding of `i`). -/
def eraseKey {β : Type} (i : Ident) : List (Ident × β) → List (Ident × β)
  | [] => []
  | p :: rest => if p.1 = i then rest else p :: eraseKey i rest

/-- The keys of an association list, in order. -/
def keysOf {β : Type} (m : List (Ident × β)) : List Ident := m.map (·.1)

/-- Sum of the values of an association list (`sum(d.values())`). -/
def valsSum (m : List (Ident × Nat)) : Nat := (m.map (·.2)).sum

/-- One entry of `reputation_expiry`: `[expiry_threshold, {identity: amount}]`. -/
abbrev Packet := Nat × List (Ident × Nat)

/-- The `reputation_expiry` list, oldest packet first. -/
abbrev Queue := List Packet

/-- Total amount the expiry queue holds for one identity. -/
def entrySum (i : Ident) (q : Queue) : Nat := (q.map (fun pk => getD pk.2 i 0)).sum

/-- Total amount the expiry queue holds over all identities. -/
def queueSum (q : Queue) : Nat := (q.map (fun pk => valsSum pk.2)).sum

section AssocLemmas

variable {β : Type}

@[simp] theorem lookupKey_nil {i : Ident} : lookupKey (β := β) i [] = none := rfl

theorem lookupKey_cons {i : Ident} {p : Ident × β} {rest : List (Ident × β)} :
    lookupKey i (p :: rest) = if p.1 = i then some p.2 else lookupKey i rest := rfl

@[simp] theorem getD_nil {i : Ident} {d : β} : getD [] i d = d := rfl

theorem getD_cons {i : Ident} {d : β} {p : Ident × β} {rest : List (Ident × β)} :
    getD (p :: rest) i d = if p.1 = i then p.2 else getD rest i d := by
  simp only [getD, lookupKey_cons]
  split <;> simp

theorem lookupKey_eq_none_of_not_mem {i : Ident} {m : List (Ident × β)}
    (h : i ∉ keysOf m) : lookupKey i m = none := by
  induction m with
  | nil => rfl
  | cons p rest ih =>
    simp only [keysOf, List.map_cons, List.mem_cons] at h
    push_neg at h
    rw [lookupKey_cons, if_neg (fun hh => h.1 hh.symm), ih (by simpa [keysOf] using h.2)]

theorem mem_keysOf_of_lookupKey {i : Ident} {m : List (Ident × β)} {v : β}
    (h : lookupKey i m = some v) : i ∈ keysOf m := by
  induction m with
  | nil => simp [lookupKey] at h
  | cons p rest ih =>
    simp only [lookupKey_cons] at h
    by_cases hp : p.1 = i
    · simp [keysOf, hp]
    · simp only [if_neg hp] at h
      have := ih h
      simp only [keysOf, List.map_cons, List.mem_cons]
      exact Or.inr (by simpa [keysOf] using this)

theorem lookupKey_isSome_iff {i : Ident} {m : List (Ident × β)} :
    (lookupKey i m).isSome = true ↔ i ∈ keysOf m := by
  constructor
  · intro h
    rcases Option.isSome_iff_exists.mp h with ⟨v, hv⟩
    exact mem_keysOf_of_lookupKey hv
  · intro h
    cases hl : lookupKey i m with
    | some v => rfl
    | none =>
      by_contra
      induction m with
      | nil => simp [keysOf] at h
      | cons p rest ih =>
        simp only [lookupKey_cons] at hl
        by_cases hp : p.1 = i
        · simp [hp] at hl
        · simp only [if_neg hp] at hl
          simp only [keysOf, List.map_cons, List.mem_cons] at h
          rcases h with h | h
          · exact hp h.symm
          · exact ih (by simpa [keysOf] using h) hl

theorem lookupKey_setKey_self {i : Ident} {v : β} {m : List (Ident × β)} :
    lookupKey i (setKey i v m) = some v := by
  induction m with
  | nil => simp [setKey, lookupKey]
  | cons p rest ih =>
    simp only [setKey]
    by_cases hp : p.1 = i
    · simp [hp, lookupKey_cons]
    · simp [hp, lookupKey_cons, ih]

theorem lookupKey_setKey_ne {i j : Ident} {v : β} {m : List (Ident × β)}
    (h : i ≠ j) : lookupKey j (setKey i v m) = lookupKey j m := by
  induction m with
  | nil => simp [setKey, lookupKey_cons, h]
  | cons p rest ih =>
    simp only [setKey]
    by_cases hp : p.1 = i
    · simp [lookupKey_cons, hp, h]
    · simp [lookupKey_cons, hp, ih]

theorem getD_setKey_self {i : Ident} {v d : β} {m : List (Ident × β)} :
    getD (setKey i v m) i d = v := by
  simp [getD, lookupKey_setKey_self]

theorem getD_setKey_ne {i j : Ident} {v d : β} {m : List (Ident × β)}
    (h : i ≠ j) : getD (setKey i v m) j d = getD m j d := by
  simp [getD, lookupKey_setKey_ne h]

theorem lookupKey_eraseKey_ne {i j : Ident} {m : List (Ident × β)}
    (h : i ≠ j) : lookupKey j (eraseKey i m) = lookupKey j m := by
  induction m with
  | nil => simp [eraseKey]
  | cons p rest ih =>
    simp only [eraseKey]
    by_cases hp : p.1 = i
    · have hj : ¬p.1 = j := by rw [hp]; exact h
      simp only [if_pos hp, lookupKey_cons, if_neg hj]
    · simp [lookupKey_cons, hp, ih]

theorem lookupKey_eraseKey_self {i : Ident} {m : List (Ident × β)}
    (hnd : (keysOf m).Nodup) : lookupKey i (eraseKey i m) = none := by
  induction m with
  | nil => simp [eraseKey]
  | cons p rest ih =>
    simp only [keysOf, List.map_cons, List.nodup_cons] at hnd
    simp only [eraseKey]
    by_cases hp : p.1 = i
    · subst hp
      exact lookupKey_eq_none_of_not_mem (by simpa [keysOf] using hnd.1)
    · simp [lookupKey_cons, hp, ih hnd.2]

theorem keysOf_setKey_mem {i : Ident} {v : β} {m : List (Ident × β)}
    (h : i ∈ keysOf m) : keysOf (setKey i v m) = keysOf m := by
  induction m with
  | nil => simp [keysOf] at h
  | cons p rest ih =>
    simp only [setKey]
    by_cases hp : p.1 = i
    · simp [keysOf, hp]
    · simp only [keysOf, List.map_cons, List.mem_cons] at h
      rcases h with h | h
      · exact absurd h.symm hp
      · have := ih (by simpa [keysOf] using h)
        simp only [if_neg hp, keysOf, List.map_cons]
        rw [show List.map (fun x => x.1) (setKey i v rest) = List.map (fun x => x.1) rest from by
          simpa [keysOf] using this]

theorem keysOf_setKey_not_mem {i : Ident} {v : β} {m : List (Ident × β)}
    (h : i ∉ keysOf m) : keysOf (setKey i v m) = keysOf m ++ [i] := by
  induction m with
  | nil => simp [keysOf, setKey]
  | cons p rest ih =>
    simp only [keysOf, List.map_cons, List.mem_cons] at h
    push_neg at h
    simp only [setKey]
    rw [if_neg (fun hh => h.1 hh.symm)]
    have := ih (by simpa [keysOf] using h.2)
    simp only [keysOf, List.map_cons] at this ⊢
    rw [this, List.cons_append]

theorem nodup_keysOf_setKey {i : Ident} {v : β} {m : List (Ident × β)}
    (h : (keysOf m).Nodup) : (keysOf (setKey i v m)).Nodup := by
  by_cases hm : i ∈ keysOf m
  · rw [keysOf_setKey_mem hm]; exact h
  · rw [keysOf_setKey_not_mem hm]
    simpa using List.Nodup.append h (by simp) (by simpa using fun hx => hm hx)

theorem keysOf_eraseKey_sublist {i : Ident} {m : List (Ident × β)} :
    (keysOf (eraseKey i m)).Sublist (keysOf m) := by
  induction m with
  | nil => simp [eraseKey]
  | cons p rest ih =>
    simp only [eraseKey]
    by_cases hp : p.1 = i
    · simp only [if_pos hp, keysOf, List.map_cons]
      exact (List.sublist_cons_self _ _)
    · simp only [if_neg hp, keysOf, List.map_cons]
      exact ih.cons₂ _

theorem nodup_keysOf_eraseKey {i : Ident} {m : List (Ident × β)}
    (h : (keysOf m).Nodup) : (keysOf (eraseKey i m)).Nodup :=
  h.sublist keysOf_eraseKey_sublist

theorem lookupKey_eq_of_mem_nodup {i : Ident} {v : β} {m : List (Ident × β)}
    (hm : (i, v) ∈ m) (hnd : (keysOf m).Nodup) : lookupKey i m = some v := by
  induction m with
  | nil => simp at hm
  | cons p rest ih =>
    simp only [keysOf, List.map_cons, List.nodup_cons] at hnd
    rcases List.mem_cons.mp hm with h | h
    · rw [← h, lookupKey_cons, if_pos rfl]
    · have hpi : ¬p.1 = i := by
        intro hh
        exact hnd.1 (hh ▸ (List.mem_map.mpr ⟨(i, v), h, rfl⟩))
      rw [lookupKey_cons, if_neg hpi, ih h (by simpa [keysOf] using hnd.2)]

theorem mem_of_lookupKey {i : Ident} {v : β} {m : List (Ident × β)}
    (h : lookupKey i m = some v) : (i, v) ∈ m := by
  induction m with
  | nil => simp [lookupKey] at h
  | cons p rest ih =>
    simp only [lookupKey_cons] at h
    by_cases hp : p.1 = i
    · rw [if_pos hp] at h
      injection h with h
      have hpv : p = (i, v) := by
        cases p
        simp only at hp h
        rw [hp, h]
      rw [hpv]
      exact List.mem_cons_self _ _
    · rw [if_neg hp] at h
      exact List.mem_cons_of_mem _ (ih h)

end AssocLemmas

theorem getD_eq_zero_of_not_mem {i : Ident} {m : List (Ident × Nat)}
    (h : i ∉ keysOf m) : getD m i 0 = 0 := by
  simp [getD, lookupKey_eq_none_of_not_mem h]

theorem mem_keysOf_of_getD_pos {i : Ident} {m : List (Ident × Nat)}
    (h : 0 < getD m i 0) : i ∈ keysOf m := by
  by_contra hc
  rw [getD_eq_zero_of_not_mem hc] at h
  exact Nat.lt_irrefl 0 h

theorem valsSum_nil : valsSum [] = 0 := rfl

theorem valsSum_cons {p : Ident × Nat} {m : List (Ident × Nat)} :
    valsSum (p :: m) = p.2 + valsSum m := by
  simp [valsSum]

theorem valsSum_append {m₁ m₂ : List (Ident × Nat)} :
    valsSum (m₁ ++ m₂) = valsSum m₁ + valsSum m₂ := by
  simp [valsSum]

theorem valsSum_setKey_some {i : Ident} {v w : Nat} {m : List (Ident × Nat)}
    (h : lookupKey i m = some w) :
    valsSum (setKey i v m) + w = valsSum m + v := by
  induction m with
  | nil => simp [lookupKey] at h
  | cons p rest ih =>
    simp only [lookupKey_cons] at h
    by_cases hp : p.1 = i
    · rw [if_pos hp] at h
      injection h with h
      simp only [setKey, if_pos hp, valsSum_cons, ← h]
      omega
    · rw [if_neg hp] at h
      have := ih h
      simp only [setKey, if_neg hp, valsSum_cons]
      omega

theorem valsSum_setKey_none {i : Ident} {v : Nat} {m : List (Ident × Nat)}
    (h : lookupKey i m = none) :
    valsSum (setKey i v m) = valsSum m + v := by
  induction m with
  | nil => simp [setKey, valsSum]
  | cons p rest ih =>
    simp only [lookupKey_cons] at h
    by_cases hp : p.1 = i
    · simp [if_pos hp] at h
    · rw [if_neg hp] at h
      simp only [setKey, if_neg hp, valsSum_cons, ih h]
      omega

theorem getD_filter_pos {i : Ident} {m : List (Ident × Nat)}
    (hnd : (keysOf m).Nodup) :
    getD (m.filter (fun p => 0 < p.2)) i 0 = getD m i 0 := by
  induction m with
  | nil => simp
  | cons p rest ih =>
    simp only [keysOf, List.map_cons, List.nodup_cons] at hnd
    have ihr := ih (by simpa [keysOf] using hnd.2)
    by_cases hv : 0 < p.2
    · rw [List.filter_cons_of_pos (by simpa using hv), getD_cons, getD_cons, ihr]
    · rw [List.filter_cons_of_neg (by simpa using hv), getD_cons, ihr]
      by_cases hp : p.1 = i
      · rw [if_pos hp]
        have : p.2 = 0 := by omega
        rw [this]
        subst hp
        rw [getD_eq_zero_of_not_mem (by simpa [keysOf] using hnd.1)]
      · rw [if_neg hp]

theorem entrySum_nil {i : Ident} : entrySum i [] = 0 := rfl

theorem entrySum_cons {i : Ident} {pk : Packet} {q : Queue} :
    entrySum i (pk :: q) = getD pk.2 i 0 + entrySum i q := by
  simp [entrySum]

theorem entrySum_append {i : Ident} {q₁ q₂ : Queue} :
    entrySum i (q₁ ++ q₂) = entrySum i q₁ + entrySum i q₂ := by
  simp [entrySum]

theorem entrySum_reverse {i : Ident} {q : Queue} :
    entrySum i q.reverse = entrySum i q := by
  simp only [entrySum, List.map_reverse, List.sum_reverse]

theorem queueSum_cons {pk : Packet} {q : Queue} :
    queueSum (pk :: q) = valsSum pk.2 + queueSum q := by
  simp [queueSum]

theorem queueSum_append {q₁ q₂ : Queue} :
    queueSum (q₁ ++ q₂) = queueSum q₁ + queueSum q₂ := by
  simp [queueSum]


/-! ## Reputation engine: constants and state (`TRS.__init__`) -/

/-- Consensus constant `reputation_issuance_stop = 1 << 20`. -/
def reputation_issuance_stop : Nat := 1 <<< 20

/-- Consensus constant `reputation_expiration = 20000`. -/
def reputation_expiration : Nat := 20000

/-- The mutable state of the `TRS` class. Logging-only fields
(`logger`, `first_update`, the statistics printed by `print_statistics`
excepted) and database handles are not part of the observable state modelled
here; `insert_reputation_differences` is the delta buffer, and database rows
written by `insert_trs` are returned by `update` as snapshot rows. -/
structure TRS where
  trs_file_json : String
  witnessing_acts : Nat
  leftover_reputation : Nat
  reputation_expiry : Queue
  epoch : Nat
  identities : List (Ident × Nat)
  insert_reputation_differences : List Delta
  max_reputation_distributed : Nat
  max_reputation_slashed : Nat
deriving DecidableEq

/-- The state constructed by `TRS.__init__` when no file is loaded. -/
def initial_trs (trs_file_json : String) : TRS :=
  { trs_file_json := trs_file_json
    witnessing_acts := 0
    leftover_reputation := 0
    reputation_expiry := []
    epoch := 0
    identities := []
    insert_reputation_differences := []
    max_reputation_distributed := 0
    max_reputation_slashed := 0 }

/-! ## Snapshot store (`persist_trs` / `load_trs`) -/

/-- The JSON value serialised by `persist_trs` and parsed by `load_trs`.
`json.dump` is deterministic in this data (dict iteration order is insertion
order, reproduced by `json.load`), so equality of `SnapshotData` values is
equality of the file bytes. -/
structure SnapshotData where
  witnessing_acts : Nat
  leftover_reputation : Nat
  reputation_expiry : Queue
  epoch : Nat
  identities : List (Ident × Nat)
deriving DecidableEq

/-- `persist_trs` (lines 66-84): with an empty file name it logs and returns
without writing; otherwise the file contents become the JSON dictionary
below (directory creation and the file handle are elided). -/
def persist_trs (s : TRS) : Option SnapshotData :=
  if s.trs_file_json = "" then none
  else
    some { witnessing_acts := s.witnessing_acts
           leftover_reputation := s.leftover_reputation
           reputation_expiry := s.reputation_expiry
           epoch := s.epoch
           identities := s.identities }

/-- `load_trs` (lines 86-95): overwrite the five persisted fields from the
file contents. -/
def load_trs (s : TRS) (data : SnapshotData) : TRS :=
  { s with witnessing_acts := data.witnessing_acts
           leftover_reputation := data.leftover_reputation
           reputation_expiry := data.reputation_expiry
           epoch := data.epoch
           identities := data.identities }

/-! ## Reputation manipulation functions -/

/-- The loop of `filter_honest_identities` (lines 236-239): build the set of
honest identities. The source iterates `honests.most_common()` (counts
descending); since an identity is added at most once and the criterion is
per-identity, the resulting set does not depend on the iteration order, and
we iterate the counter in list order. Membership `i ∉ acc` mirrors the
set-ness of `honest_identities.add`. -/
def honestAcc (errors liars : List (Ident × Nat)) :
    List (Ident × Nat) → List Ident → List Ident
  | [], acc => acc
  | (i, truths) :: rest, acc =>
    honestAcc errors liars rest
      (if getD liars i 0 = 0 ∧ getD errors i 0 ≤ truths ∧ i ∉ acc then acc ++ [i] else acc)

/-- `filter_honest_identities` (lines 233-240). -/
def filter_honest_identities (honests errors liars : List (Ident × Nat)) :
    List Ident × List (Ident × Nat) :=
  (honestAcc errors liars honests [], liars)

/-- `issue_reputation` (lines 242-249). -/
def issue_reputation (witnessing_acts new_witnessing_acts : Nat) : Nat :=
  if witnessing_acts ≥ reputation_issuance_stop then 0
  else min reputation_issuance_stop (witnessing_acts + new_witnessing_acts) - witnessing_acts

/-- The inner loop of `expire_reputation` (lines 263-271) over one due
packet: for each entry, count it as expired, subtract it from the identity
map (`none` models the KeyError on a missing identity and the
`assert self.identities[identity] >= 0` failure), and buffer an `expire`
delta. -/
def expirePacket (epoch : Nat) :
    List (Ident × Nat) → List (Ident × Nat) → List Delta → Nat →
    Option (List (Ident × Nat) × List Delta × Nat)
  | [], ids, ds, acc => some (ids, ds, acc)
  | (i, reputation) :: rest, ids, ds, acc =>
    match lookupKey i ids with
    | none => none
    | some v =>
      if v < reputation then none
      else
        expirePacket epoch rest (setKey i (v - reputation) ids)
          (ds ++ [(i, epoch, -(reputation : Int), "expire")]) (acc + reputation)

/-- `expire_reputation` (lines 251-282) without the `next_epoch` epoch
choice (the caller passes the epoch used for delta records): drain the front
of the expiry queue while the oldest threshold is `≤ witnessing_acts`
(`del self.reputation_expiry[counter]` with `counter = 0`; the
`counter += 1` branch is unreachable), returning the remaining queue, the
updated identity map, the delta buffer, and the total expired amount. -/
def expire_reputation (epoch witnessing_acts : Nat) :
    Queue → List (Ident × Nat) → List Delta →
    Option (Queue × List (Ident × Nat) × List Delta × Nat)
  | [], ids, ds => some ([], ids, ds, 0)
  | (threshold, pkt) :: restq, ids, ds =>
    if witnessing_acts < threshold then some ((threshold, pkt) :: restq, ids, ds, 0)
    else
      match expirePacket epoch pkt ids ds 0 with
      | none => none
      | some (ids', ds', amt) =>
        match expire_reputation epoch witnessing_acts restq ids' ds' with
        | none => none
        | some (q', ids'', ds'', amt') => some (q', ids'', ds'', amt + amt')

/-- The packet scan of `penalize_liars` (lines 304-314), running over the
queue newest packet first (the argument is the reversed queue): drain the
liar's entry in each packet until the penalty is accounted for, and `break`
as soon as it reaches zero after touching a packet. Returns the modified
(still reversed) queue and the unaccounted remainder. -/
def penalizeScan (i : Ident) : Nat → Queue → Queue × Nat
  | need, [] => ([], need)
  | need, pk :: rest =>
    match lookupKey i pk.2 with
    | none =>
      let r := penalizeScan i need rest
      (pk :: r.1, r.2)
    | some amt =>
      if amt ≤ need then
        let pk' := (pk.1, eraseKey i pk.2)
        if need - amt = 0 then (pk' :: rest, 0)
        else
          let r := penalizeScan i (need - amt) rest
          (pk' :: r.1, r.2)
      else ((pk.1, setKey i (amt - need) pk.2) :: rest, 0)

/-- Result of `penalize_liars`. -/
structure PenalizeResult where
  reputation_expiry : Queue
  identities : List (Ident × Nat)
  deltas : List Delta
  penalized : Nat
  max_reputation_slashed : Nat
deriving DecidableEq

/-- `penalize_liars` (lines 294-332). The source iterates
`liar_identities.most_common()`; a `Counter` has one entry per identity, so
the list stands for that (count-descending) enumeration. For each liar
present in the identity map: `reputation_after_lies =
int(current * penalization_factor ** lies)` is exact halving per lie
(`current` is far below `2 ** 53`, and multiplying a float by `0.5 ** lies`
only decrements the exponent), hence `current / 2 ^ lies`; the penalty is
drained from the expiry packets newest first; `none` models the
`assert reputation_to_expire == 0` failure. -/
def penalize_liars (epoch : Nat) :
    List (Ident × Nat) → Queue → List (Ident × Nat) → List Delta → Nat →
    Option PenalizeResult
  | [], q, ids, ds, maxSl => some ⟨q, ids, ds, 0, maxSl⟩
  | (i, lies) :: rest, q, ids, ds, maxSl =>
    match lookupKey i ids with
    | none => penalize_liars epoch rest q ids ds maxSl
    | some current =>
      let reputation_after_lies := current / 2 ^ lies
      let penalized_reputation := current - reputation_after_lies
      let scan := penalizeScan i penalized_reputation q.reverse
      if scan.2 ≠ 0 then none
      else
        match penalize_liars epoch rest scan.1.reverse
            (setKey i reputation_after_lies ids)
            (ds ++ [(i, epoch, -(penalized_reputation : Int), "lie")])
            (if maxSl < penalized_reputation then penalized_reputation else maxSl) with
        | none => none
        | some r => some { r with penalized := penalized_reputation + r.penalized }

/-- Result of `distribute_reputation`. -/
structure DistributeResult where
  identities : List (Ident × Nat)
  deltas : List Delta
  distributed : Nat
  earning : List Ident
deriving DecidableEq

/-- The loop of `distribute_reputation` (lines 340-353): create the key with
value 0 when absent, add the per-identity amount, buffer a `gain` delta, and
collect the earning identities in iteration order. -/
def distributeLoop (epoch r : Nat) :
    List Ident → List (Ident × Nat) → List Delta →
    List (Ident × Nat) × List Delta × List Ident
  | [], ids, ds => (ids, ds, [])
  | i :: rest, ids, ds =>
    let ids0 := if (lookupKey i ids).isSome then ids else setKey i 0 ids
    let ids1 := setKey i (getD ids0 i 0 + r) ids0
    let res := distributeLoop epoch r rest ids1 (ds ++ [(i, epoch, (r : Int), "gain")])
    (res.1, res.2.1, i :: res.2.2)

/-- `distribute_reputation` (lines 334-355). `int(total / (len or 1))` is
float division then truncation; the quotient is far below `2 ** 52`, where
this coincides with integer division. -/
def distribute_reputation (epoch total : Nat) (honest_identities : List Ident)
    (ids : List (Ident × Nat)) (ds : List Delta) : DistributeResult :=
  let reputation_to_distribute :=
    total / (if honest_identities.length = 0 then 1 else honest_identities.length)
  if reputation_to_distribute = 0 then ⟨ids, ds, 0, []⟩
  else
    let res := distributeLoop epoch reputation_to_distribute honest_identities ids ds
    ⟨res.1, res.2.1, reputation_to_distribute * res.2.2.length, res.2.2⟩

/-- `clean` (lines 498-499): drop all zero-reputation identities. -/
def clean (ids : List (Ident × Nat)) : List (Ident × Nat) :=
  ids.filter (fun p => 0 < p.2)

/-- `expire_reputation_in_next_epoch` (lines 284-292): run the expiry step
with `next_epoch=True` (deltas recorded at `self.epoch + 1`) and add the
expired amount to `leftover_reputation` (the `if expired_reputation > 0`
guard only skips adding zero). -/
def expire_reputation_in_next_epoch (s : TRS) : Option TRS :=
  match expire_reputation (s.epoch + 1) s.witnessing_acts s.reputation_expiry
      s.identities s.insert_reputation_differences with
  | none => none
  | some (q, ids, ds, expired) =>
    some { s with reputation_expiry := q
                  identities := ids
                  insert_reputation_differences := ds
                  leftover_reputation := s.leftover_reputation + expired }

/-- Rows `update` hands to the database: the snapshot rows written by
`insert_trs` (epoch, identity map) and the delta batch flushed by
`finalize_reputation_insertions`. -/
structure UpdateOut where
  snapshots : List (Nat × List (Ident × Nat))
  flushed : List Delta
deriving DecidableEq

/-- The body of `update` (lines 376-426) after the epoch-gap handling:
track the epoch, filter honest identities, count the new witnessing acts,
expire / issue / penalize, distribute, flush the delta buffer, append the
new expiry packet when reputation was distributed, carry the leftover,
advance the witnessing-act counter, `clean`, and emit the snapshot row. -/
def update_live (s : TRS) (epoch : Nat)
    (revealing_identities honest_identities error_identities liar_identities :
      List (Ident × Nat)) : Option (TRS × UpdateOut) :=
  let fh := filter_honest_identities honest_identities error_identities liar_identities
  let new_witnessing_acts := (revealing_identities.map (·.2)).sum
  match expire_reputation epoch s.witnessing_acts s.reputation_expiry s.identities
      s.insert_reputation_differences with
  | none => none
  | some (q1, ids1, ds1, expired_reputation) =>
    let issued_reputation := issue_reputation s.witnessing_acts new_witnessing_acts
    match penalize_liars epoch fh.2 q1 ids1 ds1 s.max_reputation_slashed with
    | none => none
    | some pr =>
      let total_reputation :=
        s.leftover_reputation + expired_reputation + issued_reputation + pr.penalized
      let dr := distribute_reputation epoch total_reputation fh.1 pr.identities pr.deltas
      let reputation_per_identity :=
        dr.distributed / (if dr.earning.length = 0 then 1 else dr.earning.length)
      let q2 :=
        if 0 < dr.distributed then
          pr.reputation_expiry ++
            [(s.witnessing_acts + new_witnessing_acts + reputation_expiration,
              dr.earning.map (fun i => (i, reputation_per_identity)))]
        else pr.reputation_expiry
      let maxDist :=
        if 0 < dr.distributed ∧ s.max_reputation_distributed < reputation_per_identity then
          reputation_per_identity
        else s.max_reputation_distributed
    let s' : TRS :=
      { trs_file_json := s.trs_file_json
        witnessing_acts := s.witnessing_acts + new_witnessing_acts
        leftover_reputation := total_reputation - dr.distributed
        reputation_expiry := q2
        epoch := epoch
        identities := clean dr.identities
        insert_reputation_differences := []
        max_reputation_distributed := maxDist
        max_reputation_slashed := pr.max_reputation_slashed }
    some (s', { snapshots := [(epoch, s'.identities)], flushed := dr.deltas })

/-- `update` (lines 357-426). When the state was loaded from a file the
source only logs a warning about distant epochs (`first_update`); the
phantom expiry cycle runs when the stored epoch is truthy (non-zero) and the
incoming epoch skips at least one value, emitting an extra snapshot row for
`stored_epoch + 1`; the second gap branch (lines 370-373) only logs. -/
def update (s : TRS) (epoch : Nat)
    (revealing_identities honest_identities error_identities liar_identities :
      List (Ident × Nat)) : Option (TRS × UpdateOut) :=
  if s.epoch ≠ 0 ∧ s.epoch + 1 < epoch then
    match expire_reputation_in_next_epoch s with
    | none => none
    | some s1 =>
      let s2 := { s1 with identities := clean s1.identities }
      match update_live s2 epoch revealing_identities honest_identities
          error_identities liar_identities with
      | none => none
      | some (s3, out) =>
        some (s3, { out with snapshots := (s.epoch + 1, s2.identities) :: out.snapshots })
  else
    update_live s epoch revealing_identities honest_identities error_identities
      liar_identities

/-- One call of `update`, as fed by the caller. -/
structure UpdateInput where
  epoch : Nat
  revealing : List (Ident × Nat)
  honests : List (Ident × Nat)
  errors : List (Ident × Nat)
  liars : List (Ident × Nat)

/-- A sequence of `update` calls against one engine. -/
def runUpdates (s : TRS) : List UpdateInput → Option TRS
  | [] => some s
  | u :: rest =>
    match update s u.epoch u.revealing u.honests u.errors u.liars with
    | none => none
    | some (s', _) => runUpdates s' rest

/-! ## The balance invariant tying the identity map to the expiry queue -/

/-- Invariant of the engine state relating the identity map and the expiry
queue: every identity's reputation equals the sum of its un-expired packet
entries, every packet entry is for a mapped identity and is positive, and
all key lists are duplicate-free (Python dicts cannot hold duplicates). -/
def QInv (ids : List (Ident × Nat)) (q : Queue) : Prop :=
  (∀ p ∈ ids, p.2 = entrySum p.1 q) ∧
  (∀ pk ∈ q, ∀ e ∈ pk.2, (∃ p ∈ ids, p.1 = e.1) ∧ 0 < e.2) ∧
  (keysOf ids).Nodup ∧
  (∀ pk ∈ q, (keysOf pk.2).Nodup)

instance (ids : List (Ident × Nat)) (q : Queue) : Decidable (QInv ids q) := by
  unfold QInv
  infer_instance

theorem QInv.balance {ids : List (Ident × Nat)} {q : Queue} (h : QInv ids q) :
    ∀ i, getD ids i 0 = entrySum i q := by
  intro i
  by_cases hm : i ∈ keysOf ids
  · rcases List.mem_map.mp hm with ⟨p, hp, hpi⟩
    have hl : lookupKey i ids = some p.2 := by
      have : (i, p.2) ∈ ids := by
        have : p = (i, p.2) := by
          cases p
          simp only at hpi
          rw [hpi]
        rw [← this]
        exact hp
      exact lookupKey_eq_of_mem_nodup this h.2.2.1
    rw [getD, hl, Option.getD_some, h.1 p hp, hpi]
  · rw [getD_eq_zero_of_not_mem hm]
    by_contra hc
    have hpos : 0 < entrySum i q := Nat.pos_of_ne_zero fun hh => hc hh.symm
    have : ∃ pk ∈ q, 0 < getD pk.2 i 0 := by
      by_contra hall
      push_neg at hall
      have : entrySum i q = 0 := by
        unfold entrySum
        apply List.sum_eq_zero
        intro x hx
        rcases List.mem_map.mp hx with ⟨pk, hpk, rfl⟩
        exact Nat.le_zero.mp (hall pk hpk)
      omega
    rcases this with ⟨pk, hpk, hpos'⟩
    have hi : i ∈ keysOf pk.2 := mem_keysOf_of_getD_pos hpos'
    rcases List.mem_map.mp hi with ⟨e, he, hei⟩
    rcases (h.2.1 pk hpk e he).1 with ⟨p, hp, hpe⟩
    exact hm (List.mem_map.mpr ⟨p, hp, by rw [hpe, hei]⟩)

/-! ## Further association-list helpers -/

theorem mem_of_mem_eraseKey {β : Type} {e : Ident × β} {i : Ident}
    {m : List (Ident × β)} (h : e ∈ eraseKey i m) : e ∈ m := by
  induction m with
  | nil => simp [eraseKey] at h
  | cons p rest ih =>
    simp only [eraseKey] at h
    by_cases hp : p.1 = i
    · rw [if_pos hp] at h
      exact List.mem_cons_of_mem _ h
    · rw [if_neg hp] at h
      rcases List.mem_cons.mp h with h | h
      · rw [h]; exact List.mem_cons_self _ _
      · exact List.mem_cons_of_mem _ (ih h)

theorem mem_setKey {β : Type} {e : Ident × β} {i : Ident} {v : β}
    {m : List (Ident × β)} (h : e ∈ setKey i v m) : e = (i, v) ∨ e ∈ m := by
  induction m with
  | nil => simpa [setKey] using h
  | cons p rest ih =>
    simp only [setKey] at h
    by_cases hp : p.1 = i
    · rw [if_pos hp] at h
      rcases List.mem_cons.mp h with h | h
      · exact Or.inl h
      · exact Or.inr (List.mem_cons_of_mem _ h)
    · rw [if_neg hp] at h
      rcases List.mem_cons.mp h with h | h
      · exact Or.inr (by rw [h]; exact List.mem_cons_self _ _)
      · rcases ih h with h | h
        · exact Or.inl h
        · exact Or.inr (List.mem_cons_of_mem _ h)

theorem eraseKey_of_not_mem {β : Type} {i : Ident} {m : List (Ident × β)}
    (h : i ∉ keysOf m) : eraseKey i m = m := by
  induction m with
  | nil => rfl
  | cons p rest ih =>
    simp only [keysOf, List.map_cons, List.mem_cons] at h
    push_neg at h
    simp only [eraseKey]
    rw [if_neg (fun hh : p.1 = i => h.1 hh.symm), ih (by simpa [keysOf] using h.2)]

theorem not_mem_keysOf_eraseKey {β : Type} {i : Ident} {m : List (Ident × β)}
    (hnd : (keysOf m).Nodup) : i ∉ keysOf (eraseKey i m) := by
  intro hmem
  rcases List.mem_map.mp hmem with ⟨e, he, hei⟩
  have := lookupKey_eraseKey_self (i := i) (m := m) hnd
  have h2 : lookupKey i (eraseKey i m) = some e.2 := by
    apply lookupKey_eq_of_mem_nodup
    · have : e = (i, e.2) := by cases e; simp only at hei; rw [hei]
      rw [← this]; exact he
    · exact nodup_keysOf_eraseKey hnd
  rw [this] at h2
  exact Option.noConfusion h2

theorem valsSum_eraseKey {i : Ident} {v : Nat} {m : List (Ident × Nat)}
    (h : lookupKey i m = some v) : valsSum (eraseKey i m) + v = valsSum m := by
  induction m with
  | nil => simp [lookupKey] at h
  | cons p rest ih =>
    simp only [lookupKey_cons] at h
    by_cases hp : p.1 = i
    · rw [if_pos hp] at h
      injection h with h
      simp only [eraseKey, if_pos hp, valsSum_cons, ← h]
      omega
    · rw [if_neg hp] at h
      simp only [eraseKey, if_neg hp, valsSum_cons]
      have := ih h
      omega

/-! ## Packet frame relation: what an operation leaves untouched -/

/-- Two packets agree on threshold and on every identity satisfying `P`. -/
def PacketFrame (P : Ident → Prop) (pk pk' : Packet) : Prop :=
  pk.1 = pk'.1 ∧ ∀ j, P j → getD pk'.2 j 0 = getD pk.2 j 0

theorem packetFrame_refl (P : Ident → Prop) (pk : Packet) : PacketFrame P pk pk :=
  ⟨rfl, fun _ _ => rfl⟩

theorem forall₂_frame_refl (P : Ident → Prop) (l : Queue) :
    List.Forall₂ (PacketFrame P) l l :=
  List.forall₂_same.mpr (fun pk _ => packetFrame_refl P pk)

theorem forall₂_frame_comp {P : Ident → Prop} {l₁ l₂ l₃ : Queue}
    (h₁ : List.Forall₂ (PacketFrame P) l₁ l₂)
    (h₂ : List.Forall₂ (PacketFrame P) l₂ l₃) :
    List.Forall₂ (PacketFrame P) l₁ l₃ := by
  induction h₁ generalizing l₃ with
  | nil =>
    cases h₂
    exact List.Forall₂.nil
  | cons hab hrest ih =>
    cases h₂ with
    | cons hbc hrest' =>
      exact List.Forall₂.cons
        ⟨hab.1.trans hbc.1, fun j hj => (hbc.2 j hj).trans (hab.2 j hj)⟩
        (ih hrest')

theorem forall₂_frame_mono {P Q : Ident → Prop} {l₁ l₂ : Queue}
    (h : List.Forall₂ (PacketFrame P) l₁ l₂) (hPQ : ∀ j, Q j → P j) :
    List.Forall₂ (PacketFrame Q) l₁ l₂ :=
  List.Forall₂.imp (fun _ _ hf => ⟨hf.1, fun j hj => hf.2 j (hPQ j hj)⟩) h

theorem forall₂_reverse {R : Packet → Packet → Prop} {l₁ l₂ : Queue}
    (h : List.Forall₂ R l₁ l₂) : List.Forall₂ R l₁.reverse l₂.reverse :=
  List.forall₂_reverse_iff.mpr h

theorem entrySum_eq_of_forall₂ {P : Ident → Prop} {q q' : Queue} {j : Ident}
    (h : List.Forall₂ (PacketFrame P) q q') (hj : P j) :
    entrySum j q' = entrySum j q := by
  induction h with
  | nil => rfl
  | cons hab hrest ih =>
    rw [entrySum_cons, entrySum_cons, ih, hab.2 j hj]

theorem forall₂_mem_right {R : Packet → Packet → Prop} {l₁ l₂ : Queue}
    (h : List.Forall₂ R l₁ l₂) {b : Packet} (hb : b ∈ l₂) :
    ∃ a ∈ l₁, R a b := by
  induction h with
  | nil => simp at hb
  | cons hab hrest ih =>
    rcases List.mem_cons.mp hb with hb | hb
    · exact ⟨_, List.mem_cons_self _ _, hb ▸ hab⟩
    · rcases ih hb with ⟨a, ha, har⟩
      exact ⟨a, List.mem_cons_of_mem _ ha, har⟩

/-- Helper: an entry's key is among the packet's keys. -/
theorem key_mem_keysOf {β : Type} {e : Ident × β} {m : List (Ident × β)}
    (h : e ∈ m) : e.1 ∈ keysOf m :=
  List.mem_map.mpr ⟨e, h, rfl⟩

/-- What the newest-first packet scan of `penalize_liars` does: the
remainder never exceeds the requested penalty, exactly the drained amount
leaves the liar's packet entries, the scan drains fully whenever the queue
holds enough for the liar, and every other identity's packet entries (with
their positivity, key-uniqueness and key-coverage) are untouched. -/
theorem penalizeScan_spec (i : Ident) :
    ∀ (need : Nat) (l : Queue),
      (∀ pk ∈ l, (keysOf pk.2).Nodup) →
      (∀ pk ∈ l, ∀ e ∈ pk.2, 0 < e.2) →
      (penalizeScan i need l).2 ≤ need ∧
      entrySum i (penalizeScan i need l).1 + (need - (penalizeScan i need l).2) =
        entrySum i l ∧
      (need ≤ entrySum i l → (penalizeScan i need l).2 = 0) ∧
      List.Forall₂ (fun pk pk' =>
        PacketFrame (fun j => j ≠ i) pk pk' ∧ (keysOf pk'.2).Nodup ∧
        (∀ e ∈ pk'.2, 0 < e.2) ∧ (∀ e ∈ pk'.2, e.1 ∈ keysOf pk.2)) l
        (penalizeScan i need l).1 := by
  intro need l
  induction l generalizing need with
  | nil =>
    intro _ _
    exact ⟨le_refl _, by simp [penalizeScan, entrySum_nil], fun h => by
      simp only [entrySum_nil, Nat.le_zero] at h
      simp [penalizeScan, h], by simp [penalizeScan]⟩
  | cons pk rest ih =>
    intro hnd hpos
    have hndpk := hnd pk (List.mem_cons_self _ _)
    have hpospk := hpos pk (List.mem_cons_self _ _)
    have hndrest : ∀ pk' ∈ rest, (keysOf pk'.2).Nodup :=
      fun pk' h => hnd pk' (List.mem_cons_of_mem _ h)
    have hposrest : ∀ pk' ∈ rest, ∀ e ∈ pk'.2, 0 < e.2 :=
      fun pk' h => hpos pk' (List.mem_cons_of_mem _ h)
    have hreflrest : List.Forall₂ (fun pk pk' =>
        PacketFrame (fun j => j ≠ i) pk pk' ∧ (keysOf pk'.2).Nodup ∧
        (∀ e ∈ pk'.2, 0 < e.2) ∧ (∀ e ∈ pk'.2, e.1 ∈ keysOf pk.2)) rest rest :=
      List.forall₂_same.mpr (fun pk' h =>
        ⟨packetFrame_refl _ _, hndrest pk' h, hposrest pk' h, fun e he => key_mem_keysOf he⟩)
    cases hlk : lookupKey i pk.2 with
    | none =>
      have hget : getD pk.2 i 0 = 0 := by simp [getD, hlk]
      have hres : penalizeScan i need (pk :: rest) =
          ((pk :: (penalizeScan i need rest).1, (penalizeScan i need rest).2)) := by
        simp [penalizeScan, hlk]
      rcases ih need hndrest hposrest with ⟨ih1, ih2, ih3, ih4⟩
      rw [hres]
      refine ⟨ih1, ?_, ?_, ?_⟩
      · simp only [entrySum_cons, hget]
        omega
      · intro h
        rw [entrySum_cons, hget] at h
        exact ih3 (by omega)
      · exact List.Forall₂.cons
          ⟨packetFrame_refl _ _, hndpk, hpospk, fun e he => key_mem_keysOf he⟩ ih4
    | some amt =>
      have hget : getD pk.2 i 0 = amt := by simp [getD, hlk]
      by_cases hle : amt ≤ need
      · by_cases hz : need - amt = 0
        · have hres : penalizeScan i need (pk :: rest) =
              ((pk.1, eraseKey i pk.2) :: rest, 0) := by
            simp [penalizeScan, hlk, hle, hz]
          have hgete : getD (eraseKey i pk.2) i 0 = 0 := by
            simp [getD, lookupKey_eraseKey_self hndpk]
          rw [hres]
          refine ⟨Nat.zero_le _, ?_, fun _ => rfl, ?_⟩
          · simp only [entrySum_cons, hgete, hget]
            omega
          · refine List.Forall₂.cons ⟨⟨rfl, fun j hj => ?_⟩, nodup_keysOf_eraseKey hndpk,
              fun e he => hpospk e (mem_of_mem_eraseKey he),
              fun e he => key_mem_keysOf (mem_of_mem_eraseKey he)⟩ hreflrest
            simp [getD, lookupKey_eraseKey_ne (fun hh => hj hh.symm)]
        · have hres : penalizeScan i need (pk :: rest) =
              ((pk.1, eraseKey i pk.2) :: (penalizeScan i (need - amt) rest).1,
                (penalizeScan i (need - amt) rest).2) := by
            simp [penalizeScan, hlk, hle, hz]
          have hgete : getD (eraseKey i pk.2) i 0 = 0 := by
            simp [getD, lookupKey_eraseKey_self hndpk]
          rcases ih (need - amt) hndrest hposrest with ⟨ih1, ih2, ih3, ih4⟩
          rw [hres]
          refine ⟨by omega, ?_, ?_, ?_⟩
          · simp only [entrySum_cons, hgete, hget]
            omega
          · intro h
            rw [entrySum_cons, hget] at h
            exact ih3 (by omega)
          · refine List.Forall₂.cons ⟨⟨rfl, fun j hj => ?_⟩, nodup_keysOf_eraseKey hndpk,
              fun e he => hpospk e (mem_of_mem_eraseKey he),
              fun e he => key_mem_keysOf (mem_of_mem_eraseKey he)⟩ ih4
            simp [getD, lookupKey_eraseKey_ne (fun hh => hj hh.symm)]
      · have hres : penalizeScan i need (pk :: rest) =
            ((pk.1, setKey i (amt - need) pk.2) :: rest, 0) := by
          simp [penalizeScan, hlk, hle]
        have hgets : getD (setKey i (amt - need) pk.2) i 0 = amt - need :=
          getD_setKey_self
        rw [hres]
        refine ⟨Nat.zero_le _, ?_, fun _ => rfl, ?_⟩
        · simp only [entrySum_cons, hgets, hget]
          omega
        · refine List.Forall₂.cons ⟨⟨rfl, fun j hj => ?_⟩,
            nodup_keysOf_setKey hndpk, fun e he => ?_, fun e he => ?_⟩ hreflrest
          · simp [getD, lookupKey_setKey_ne (fun hh => hj hh.symm)]
          · rcases mem_setKey he with he | he
            · rw [he]
              simpa using Nat.sub_pos_of_lt (Nat.lt_of_not_le hle)
            · exact hpospk e he
          · rcases mem_setKey he with he | he
            · rw [he]
              exact mem_keysOf_of_lookupKey hlk
            · exact key_mem_keysOf he

/-- Alternative constructor for `QInv` from the pointwise balance. -/
theorem QInv.mk' {ids : List (Ident × Nat)} {q : Queue}
    (hbal : ∀ i, getD ids i 0 = entrySum i q)
    (hcov : ∀ pk ∈ q, ∀ e ∈ pk.2, e.1 ∈ keysOf ids ∧ 0 < e.2)
    (hnd : (keysOf ids).Nodup) (hqnd : ∀ pk ∈ q, (keysOf pk.2).Nodup) :
    QInv ids q := by
  refine ⟨fun p hp => ?_, fun pk hpk e he => ?_, hnd, hqnd⟩
  · have hpp : (p.1, p.2) ∈ ids := by
      have : p = (p.1, p.2) := by cases p; rfl
      rw [← this]; exact hp
    have : getD ids p.1 0 = p.2 := by
      rw [getD, lookupKey_eq_of_mem_nodup hpp hnd, Option.getD_some]
    rw [← this, hbal]
  · refine ⟨?_, (hcov pk hpk e he).2⟩
    rcases List.mem_map.mp (hcov pk hpk e he).1 with ⟨p, hp, hpe⟩
    exact ⟨p, hp, hpe⟩

/-- What `expirePacket` does to the identity map when every packet entry is
for a mapped identity holding at least the expiring amount: it succeeds, it
adds the packet sum to the expired accumulator, and it subtracts the packet
entry from each identity, leaving keys untouched. -/
theorem expirePacket_spec (epoch : Nat) :
    ∀ (pkt ids : List (Ident × Nat)) (ds : List Delta) (acc : Nat),
      (keysOf pkt).Nodup →
      (∀ e ∈ pkt, e.2 ≤ getD ids e.1 0 ∧ e.1 ∈ keysOf ids) →
      ∃ ids' ds',
        expirePacket epoch pkt ids ds acc = some (ids', ds', acc + valsSum pkt) ∧
        (∀ j, getD ids' j 0 + getD pkt j 0 = getD ids j 0) ∧
        keysOf ids' = keysOf ids ∧
        ((keysOf ids).Nodup → (keysOf ids').Nodup) ∧
        valsSum ids' + valsSum pkt = valsSum ids := by
  intro pkt
  induction pkt with
  | nil =>
    intro ids ds acc _ _
    exact ⟨ids, ds, by simp [expirePacket, valsSum_nil], fun j => by simp, rfl,
      fun h => h, by simp [valsSum_nil]⟩
  | cons e rest ih =>
    rcases e with ⟨i, r⟩
    intro ids ds acc hnd hge
    have hcons : (i :: keysOf rest).Nodup := by simpa [keysOf] using hnd
    have hndr : (keysOf rest).Nodup := (List.nodup_cons.mp hcons).2
    have hinot : i ∉ keysOf rest := (List.nodup_cons.mp hcons).1
    have hler : r ≤ getD ids i 0 := (hge (i, r) (List.mem_cons_self _ _)).1
    have hmem : i ∈ keysOf ids := (hge (i, r) (List.mem_cons_self _ _)).2
    rcases Option.isSome_iff_exists.mp (lookupKey_isSome_iff.mpr hmem) with ⟨v, hv⟩
    have hgetv : getD ids i 0 = v := by rw [getD, hv, Option.getD_some]
    have hrv : r ≤ v := hgetv ▸ hler
    have hkeys1 : keysOf (setKey i (v - r) ids) = keysOf ids := keysOf_setKey_mem hmem
    have hgerest : ∀ e' ∈ rest, e'.2 ≤ getD (setKey i (v - r) ids) e'.1 0 ∧
        e'.1 ∈ keysOf (setKey i (v - r) ids) := by
      intro e' he'
      have hne : i ≠ e'.1 := fun hh => hinot (hh ▸ key_mem_keysOf he')
      rw [getD_setKey_ne hne, hkeys1]
      exact hge e' (List.mem_cons_of_mem _ he')
    rcases ih (setKey i (v - r) ids) (ds ++ [(i, epoch, -(r : Int), "expire")])
        (acc + r) hndr hgerest with ⟨ids', ds', heq, hpt, hkeys, hndp, hsum⟩
    have hsetsum : valsSum (setKey i (v - r) ids) + v = valsSum ids + (v - r) :=
      valsSum_setKey_some hv
    refine ⟨ids', ds', ?_, ?_, ?_, ?_, ?_⟩
    · have hred : expirePacket epoch ((i, r) :: rest) ids ds acc =
          expirePacket epoch rest (setKey i (v - r) ids)
            (ds ++ [(i, epoch, -(r : Int), "expire")]) (acc + r) := by
        simp [expirePacket, hv, Nat.not_lt.mpr hrv]
      rw [hred, heq]
      have : acc + r + valsSum rest = acc + valsSum ((i, r) :: rest) := by
        rw [valsSum_cons]
        omega
      rw [this]
    · intro j
      have hptj := hpt j
      rw [getD_cons]
      by_cases hij : i = j
      · subst hij
        rw [if_pos rfl]
        rw [getD_setKey_self] at hptj
        have hz : getD rest i 0 = 0 := getD_eq_zero_of_not_mem hinot
        rw [hz] at hptj
        omega
      · rw [if_neg hij]
        rw [getD_setKey_ne hij] at hptj
        exact hptj
    · rw [hkeys, hkeys1]
    · intro h
      exact hndp (by rw [hkeys1]; exact h)
    · rw [valsSum_cons]
      omega

/-- The predicate selecting due expiry packets. -/
def duePred (wa : Nat) : Packet → Bool := fun pk => decide (pk.1 ≤ wa)

/-- What `expire_reputation` does under the balance invariant: it always
succeeds, it drains exactly the longest due prefix of the queue (packets
whose threshold is at most the witnessing-act counter), the expired total is
that prefix's sum, the invariant is re-established against the remaining
queue, keys are untouched, and the map total drops by the expired total. -/
theorem expire_reputation_spec (epoch wa : Nat) :
    ∀ (q : Queue) (ids : List (Ident × Nat)) (ds : List Delta), QInv ids q →
      ∃ ids' ds',
        expire_reputation epoch wa q ids ds =
          some (q.dropWhile (duePred wa), ids', ds',
            queueSum (q.takeWhile (duePred wa))) ∧
        QInv ids' (q.dropWhile (duePred wa)) ∧
        keysOf ids' = keysOf ids ∧
        valsSum ids' + queueSum (q.takeWhile (duePred wa)) = valsSum ids ∧
        (∀ j, getD ids' j 0 + entrySum j (q.takeWhile (duePred wa)) = getD ids j 0) := by
  intro q
  induction q with
  | nil =>
    intro ids ds hinv
    exact ⟨ids, ds, by simp [expire_reputation, queueSum], hinv, rfl,
      by simp [queueSum], fun j => by simp [entrySum_nil]⟩
  | cons pk restq ih =>
    rcases pk with ⟨threshold, pkt⟩
    intro ids ds hinv
    by_cases hdue : threshold ≤ wa
    · have hndpkt : (keysOf pkt).Nodup := hinv.2.2.2 (threshold, pkt) (List.mem_cons_self _ _)
      have hge : ∀ e ∈ pkt, e.2 ≤ getD ids e.1 0 ∧ e.1 ∈ keysOf ids := by
        intro e he
        have hcov := hinv.2.1 (threshold, pkt) (List.mem_cons_self _ _) e he
        rcases hcov.1 with ⟨p, hp, hpe⟩
        have hmem : e.1 ∈ keysOf ids := hpe ▸ key_mem_keysOf hp
        refine ⟨?_, hmem⟩
        have hbal := hinv.balance e.1
        rw [entrySum_cons] at hbal
        have hpkte : getD pkt e.1 0 = e.2 := by
          have hee : (e.1, e.2) ∈ pkt := by
            have : e = (e.1, e.2) := by cases e; rfl
            rw [← this]; exact he
          rw [getD, lookupKey_eq_of_mem_nodup hee hndpkt, Option.getD_some]
        have hpkte' : getD (threshold, pkt).2 e.1 0 = e.2 := hpkte
        rw [hpkte'] at hbal
        omega
      rcases expirePacket_spec epoch pkt ids ds 0 hndpkt hge with
        ⟨ids1, ds1, heq1, hpt1, hkeys1, hnd1, hsum1⟩
      rw [Nat.zero_add] at heq1
      have hinv1 : QInv ids1 restq := by
        refine QInv.mk' (fun j => ?_) (fun pk' hpk' e he => ?_) ?_ ?_
        · have hb := hinv.balance j
          rw [entrySum_cons] at hb
          have hptj := hpt1 j
          have hproj : getD (threshold, pkt).2 j 0 = getD pkt j 0 := rfl
          rw [hproj] at hb
          omega
        · have hc := hinv.2.1 pk' (List.mem_cons_of_mem _ hpk') e he
          rcases hc.1 with ⟨p, hp, hpe⟩
          exact ⟨by rw [hkeys1]; exact hpe ▸ key_mem_keysOf hp, hc.2⟩
        · exact hnd1 hinv.2.2.1
        · exact fun pk' hpk' => hinv.2.2.2 pk' (List.mem_cons_of_mem _ hpk')
      rcases ih ids1 ds1 hinv1 with ⟨ids', ds', heq, hinv', hkeys, hsum, hpt⟩
      have hdrop : ((threshold, pkt) :: restq).dropWhile (duePred wa) =
          restq.dropWhile (duePred wa) := by
        rw [List.dropWhile_cons]
        simp [duePred, hdue]
      have htake : ((threshold, pkt) :: restq).takeWhile (duePred wa) =
          (threshold, pkt) :: restq.takeWhile (duePred wa) := by
        rw [List.takeWhile_cons]
        simp [duePred, hdue]
      have hqs : queueSum (((threshold, pkt) :: restq).takeWhile (duePred wa)) =
          valsSum pkt + queueSum (restq.takeWhile (duePred wa)) := by
        rw [htake, queueSum_cons]
      refine ⟨ids', ds', ?_, by rw [hdrop]; exact hinv', by rw [hkeys, hkeys1], ?_, ?_⟩
      · have hnl : ¬ wa < threshold := by omega
        rw [hdrop, hqs]
        simp only [expire_reputation, hnl, if_false, heq1, heq]
      · rw [hqs]
        omega
      · intro j
        have h1 := hpt1 j
        have h2 := hpt j
        have hes : entrySum j (((threshold, pkt) :: restq).takeWhile (duePred wa)) =
            getD pkt j 0 + entrySum j (restq.takeWhile (duePred wa)) := by
          rw [htake, entrySum_cons]
        rw [hes]
        omega
    · have hnl : wa < threshold := Nat.lt_of_not_le hdue
      have hdrop : ((threshold, pkt) :: restq).dropWhile (duePred wa) =
          (threshold, pkt) :: restq := by
        rw [List.dropWhile_cons]
        simp [duePred, hdue]
      have htake : ((threshold, pkt) :: restq).takeWhile (duePred wa) = [] := by
        rw [List.takeWhile_cons]
        simp [duePred, hdue]
      refine ⟨ids, ds, ?_, by rw [hdrop]; exact hinv, rfl, by simp [htake, queueSum],
        fun j => by simp [htake, entrySum_nil]⟩
      rw [hdrop, htake]
      simp [expire_reputation, hnl, queueSum]

/-- Identities that `penalize_liars` may not touch: those that are not
listed as liars, or are liars absent from the identity map. -/
def NotTouched (liars ids : List (Ident × Nat)) (j : Ident) : Prop :=
  (∀ k, (j, k) ∉ liars) ∨ j ∉ keysOf ids

/-- One iteration of the `penalize_liars` loop (a liar present in the
identity map): the newest-first scan fully accounts for the penalty, the
balance invariant survives with the liar now holding the retained amount in
both the map and the queue, and all other identities are untouched. -/
theorem penalize_step_facts {ids : List (Ident × Nat)} {q : Queue} {i : Ident}
    {current : Nat} (lies : Nat) (hinv : QInv ids q)
    (hcur : lookupKey i ids = some current) :
    (penalizeScan i (current - current / 2 ^ lies) q.reverse).2 = 0 ∧
    QInv (setKey i (current / 2 ^ lies) ids)
      (penalizeScan i (current - current / 2 ^ lies) q.reverse).1.reverse ∧
    keysOf (setKey i (current / 2 ^ lies) ids) = keysOf ids ∧
    entrySum i (penalizeScan i (current - current / 2 ^ lies) q.reverse).1.reverse =
      current / 2 ^ lies ∧
    (∀ j, j ≠ i →
      entrySum j (penalizeScan i (current - current / 2 ^ lies) q.reverse).1.reverse =
        entrySum j q) ∧
    List.Forall₂ (PacketFrame (fun j => j ≠ i)) q
      (penalizeScan i (current - current / 2 ^ lies) q.reverse).1.reverse := by
  have hgetc : getD ids i 0 = current := by rw [getD, hcur, Option.getD_some]
  have hbal : entrySum i q = current := by rw [← hinv.balance i, hgetc]
  have hmemi : i ∈ keysOf ids := mem_keysOf_of_lookupKey hcur
  have hret : current / 2 ^ lies ≤ current := Nat.div_le_self _ _
  have hndrev : ∀ pk ∈ q.reverse, (keysOf pk.2).Nodup :=
    fun pk h => hinv.2.2.2 pk (List.mem_reverse.mp h)
  have hposrev : ∀ pk ∈ q.reverse, ∀ e ∈ pk.2, 0 < e.2 :=
    fun pk h e he => (hinv.2.1 pk (List.mem_reverse.mp h) e he).2
  rcases penalizeScan_spec i (current - current / 2 ^ lies) q.reverse hndrev hposrev
    with ⟨hle, hdrain, hfull, hf₂⟩
  have hneed : current - current / 2 ^ lies ≤ entrySum i q.reverse := by
    rw [entrySum_reverse, hbal]
    exact Nat.sub_le _ _
  have hzero : (penalizeScan i (current - current / 2 ^ lies) q.reverse).2 = 0 :=
    hfull hneed
  have hdrain' : entrySum i (penalizeScan i (current - current / 2 ^ lies) q.reverse).1 =
      current / 2 ^ lies := by
    rw [hzero, Nat.sub_zero] at hdrain
    rw [entrySum_reverse, hbal] at hdrain
    generalize hx : current / 2 ^ lies = x at hdrain hret ⊢
    omega
  have hframe : List.Forall₂ (PacketFrame (fun j => j ≠ i)) q
      (penalizeScan i (current - current / 2 ^ lies) q.reverse).1.reverse := by
    have := forall₂_reverse (List.Forall₂.imp (fun _ _ hr => hr.1) hf₂)
    rwa [List.reverse_reverse] at this
  have hesame : ∀ j, j ≠ i →
      entrySum j (penalizeScan i (current - current / 2 ^ lies) q.reverse).1.reverse =
        entrySum j q :=
    fun j hj => entrySum_eq_of_forall₂ hframe hj
  refine ⟨hzero, ?_, keysOf_setKey_mem hmemi, by rw [entrySum_reverse, hdrain'], hesame,
    hframe⟩
  refine QInv.mk' (fun j => ?_) (fun pk' hpk' e he => ?_) ?_ ?_
  · by_cases hij : i = j
    · subst hij
      rw [getD_setKey_self, entrySum_reverse, hdrain']
    · rw [getD_setKey_ne hij, hesame j (fun hh => hij hh.symm), hinv.balance j]
  · have hpk'' : pk' ∈ (penalizeScan i (current - current / 2 ^ lies) q.reverse).1 :=
      List.mem_reverse.mp hpk'
    rcases forall₂_mem_right hf₂ hpk'' with ⟨pk, hpk, hrel⟩
    have hpkq : pk ∈ q := List.mem_reverse.mp hpk
    refine ⟨?_, hrel.2.2.1 e he⟩
    have hkey : e.1 ∈ keysOf pk.2 := hrel.2.2.2 e he
    rcases List.mem_map.mp hkey with ⟨e0, he0, he0e⟩
    rcases (hinv.2.1 pk hpkq e0 he0).1 with ⟨p, hp, hpe⟩
    rw [keysOf_setKey_mem hmemi]
    exact he0e ▸ hpe ▸ key_mem_keysOf hp
  · exact nodup_keysOf_setKey hinv.2.2.1
  · intro pk' hpk'
    have hpk'' : pk' ∈ (penalizeScan i (current - current / 2 ^ lies) q.reverse).1 :=
      List.mem_reverse.mp hpk'
    rcases forall₂_mem_right hf₂ hpk'' with ⟨pk, hpk, hrel⟩
    exact hrel.2.1

/-- What `penalize_liars` does under the balance invariant: it always
succeeds, the invariant survives, map keys are untouched, identities that
are not liars present in the map keep their map entries and their packet
entries, and every new delta record is for a liar present in the map. -/
theorem penalize_liars_main (epoch : Nat) :
    ∀ (liars : List (Ident × Nat)) (q : Queue) (ids : List (Ident × Nat))
      (ds : List Delta) (maxSl : Nat), QInv ids q →
      ∃ r, penalize_liars epoch liars q ids ds maxSl = some r ∧
        QInv r.identities r.reputation_expiry ∧
        keysOf r.identities = keysOf ids ∧
        (∀ j, NotTouched liars ids j → lookupKey j r.identities = lookupKey j ids) ∧
        List.Forall₂ (PacketFrame (NotTouched liars ids)) q r.reputation_expiry ∧
        (∃ new, r.deltas = ds ++ new ∧
          ∀ d ∈ new, (∃ k, (d.1, k) ∈ liars) ∧ d.1 ∈ keysOf ids) := by
  intro liars
  induction liars with
  | nil =>
    intro q ids ds maxSl hinv
    refine ⟨⟨q, ids, ds, 0, maxSl⟩, by simp [penalize_liars], hinv, rfl,
      fun j _ => rfl, forall₂_frame_refl _ q, ⟨[], by simp, by simp⟩⟩
  | cons liar rest ih =>
    rcases liar with ⟨i, lies⟩
    intro q ids ds maxSl hinv
    cases hcur : lookupKey i ids with
    | none =>
      have hred : penalize_liars epoch ((i, lies) :: rest) q ids ds maxSl =
          penalize_liars epoch rest q ids ds maxSl := by
        simp [penalize_liars, hcur]
      rcases ih q ids ds maxSl hinv with ⟨r, heq, hq, hk, hlf, hff, new, hdeq, hdnew⟩
      refine ⟨r, hred ▸ heq, hq, hk, ?_, ?_, new, hdeq, ?_⟩
      · intro j hnt
        apply hlf
        rcases hnt with h | h
        · exact Or.inl (fun k hk' => h k (List.mem_cons_of_mem _ hk'))
        · exact Or.inr h
      · refine forall₂_frame_mono hff (fun j hnt => ?_)
        rcases hnt with h | h
        · exact Or.inl (fun k hk' => h k (List.mem_cons_of_mem _ hk'))
        · exact Or.inr h
      · intro d hd
        rcases hdnew d hd with ⟨⟨k, hk'⟩, hmem⟩
        exact ⟨⟨k, List.mem_cons_of_mem _ hk'⟩, hmem⟩
    | some current =>
      have hmemi : i ∈ keysOf ids := mem_keysOf_of_lookupKey hcur
      rcases penalize_step_facts lies hinv hcur with ⟨hz, hinv', hkeys', hei, hesame, hframe⟩
      rcases ih (penalizeScan i (current - current / 2 ^ lies) q.reverse).1.reverse
          (setKey i (current / 2 ^ lies) ids)
          (ds ++ [(i, epoch, -((current - current / 2 ^ lies : Nat) : Int), "lie")])
          (if maxSl < current - current / 2 ^ lies then current - current / 2 ^ lies
            else maxSl) hinv' with
        ⟨r0, heq0, hq0, hk0, hlf0, hff0, new0, hdeq0, hdnew0⟩
      have hred : penalize_liars epoch ((i, lies) :: rest) q ids ds maxSl =
          some { r0 with penalized := (current - current / 2 ^ lies) + r0.penalized } := by
        simp [penalize_liars, hcur, hz, heq0]
      have hntcons : ∀ j, NotTouched ((i, lies) :: rest) ids j → j ≠ i := by
        intro j hnt he
        rcases hnt with h | h
        · exact h lies (he ▸ List.mem_cons_self _ _)
        · exact h (he ▸ hmemi)
      have hntrest : ∀ j, NotTouched ((i, lies) :: rest) ids j →
          NotTouched rest (setKey i (current / 2 ^ lies) ids) j := by
        intro j hnt
        rcases hnt with h | h
        · exact Or.inl (fun k hk' => h k (List.mem_cons_of_mem _ hk'))
        · exact Or.inr (by rw [hkeys']; exact h)
      refine ⟨{ r0 with penalized := (current - current / 2 ^ lies) + r0.penalized },
        hred, hq0, by rw [hk0, hkeys'], ?_, ?_, ?_⟩
      · intro j hnt
        rw [hlf0 j (hntrest j hnt),
          lookupKey_setKey_ne (fun hh => (hntcons j hnt) hh.symm)]
      · exact forall₂_frame_comp (forall₂_frame_mono hframe hntcons)
          (forall₂_frame_mono hff0 hntrest)
      · refine ⟨(i, epoch, -((current - current / 2 ^ lies : Nat) : Int), "lie") :: new0,
          by rw [hdeq0]; simp, ?_⟩
        intro d hd
        rcases List.mem_cons.mp hd with hd | hd
        · rw [hd]
          exact ⟨⟨lies, List.mem_cons_self _ _⟩, hmemi⟩
        · rcases hdnew0 d hd with ⟨⟨k, hk'⟩, hmem⟩
          exact ⟨⟨k, List.mem_cons_of_mem _ hk'⟩, by rw [hkeys'] at hmem; exact hmem⟩

/-- Per-liar effect of `penalize_liars`: a liar `i` with `k` recorded lies
and current reputation `current` ends with map entry
`current / 2 ^ k` (the retained amount), its packet entries drop by exactly
the penalty, and a `lie` delta for the penalty is buffered. -/
theorem penalize_liars_liar_spec (epoch : Nat) :
    ∀ (liars : List (Ident × Nat)) (q : Queue) (ids : List (Ident × Nat))
      (ds : List Delta) (maxSl : Nat) (i : Ident) (k current : Nat),
      QInv ids q → (keysOf liars).Nodup → (i, k) ∈ liars →
      lookupKey i ids = some current →
      ∃ r, penalize_liars epoch liars q ids ds maxSl = some r ∧
        lookupKey i r.identities = some (current / 2 ^ k) ∧
        entrySum i r.reputation_expiry + (current - current / 2 ^ k) = entrySum i q ∧
        (i, epoch, -((current - current / 2 ^ k : Nat) : Int), "lie") ∈ r.deltas := by
  intro liars
  induction liars with
  | nil =>
    intro q ids ds maxSl i k current _ _ hmem _
    simp at hmem
  | cons liar rest ih =>
    rcases liar with ⟨j, l⟩
    intro q ids ds maxSl i k current hinv hnd hmem hcur
    have hndcons : (j :: keysOf rest).Nodup := by simpa [keysOf] using hnd
    have hjnot : j ∉ keysOf rest := (List.nodup_cons.mp hndcons).1
    have hndrest : (keysOf rest).Nodup := by
      have := (List.nodup_cons.mp hndcons).2
      simpa [keysOf] using this
    rcases List.mem_cons.mp hmem with hhead | htail
    · obtain ⟨hij, hkl⟩ : i = j ∧ k = l := by
        have := hhead
        rw [Prod.mk.injEq] at this
        exact this
      subst hij
      subst hkl
      rcases penalize_step_facts k hinv hcur with ⟨hz, hinv', hkeys', hei, _, _⟩
      rcases penalize_liars_main epoch rest
          (penalizeScan i (current - current / 2 ^ k) q.reverse).1.reverse
          (setKey i (current / 2 ^ k) ids)
          (ds ++ [(i, epoch, -((current - current / 2 ^ k : Nat) : Int), "lie")])
          (if maxSl < current - current / 2 ^ k then current - current / 2 ^ k
            else maxSl) hinv' with
        ⟨r0, heq0, _, _, hlf0, hff0, new0, hdeq0, _⟩
      have hred : penalize_liars epoch ((i, k) :: rest) q ids ds maxSl =
          some { r0 with penalized := (current - current / 2 ^ k) + r0.penalized } := by
        simp [penalize_liars, hcur, hz, heq0]
      have hnti : NotTouched rest (setKey i (current / 2 ^ k) ids) i := by
        refine Or.inl (fun k' hk' => ?_)
        exact hjnot (key_mem_keysOf hk')
      have hbal : entrySum i q = current := by
        rw [← hinv.balance i, getD, hcur, Option.getD_some]
      refine ⟨{ r0 with penalized := (current - current / 2 ^ k) + r0.penalized },
        hred, ?_, ?_, ?_⟩
      · show lookupKey i r0.identities = some (current / 2 ^ k)
        rw [hlf0 i hnti, lookupKey_setKey_self]
      · show entrySum i r0.reputation_expiry + (current - current / 2 ^ k) = entrySum i q
        rw [entrySum_eq_of_forall₂ hff0 hnti, hei, hbal]
        have hret : current / 2 ^ k ≤ current := Nat.div_le_self _ _
        generalize current / 2 ^ k = x at hret ⊢
        omega
      · show (i, epoch, -((current - current / 2 ^ k : Nat) : Int), "lie") ∈ r0.deltas
        rw [hdeq0]
        exact List.mem_append_left _ (List.mem_append_right _ (List.mem_singleton.mpr rfl))
    · have hji : j ≠ i := by
        intro he
        exact hjnot (he ▸ key_mem_keysOf htail)
      cases hcurj : lookupKey j ids with
      | none =>
        have hred : penalize_liars epoch ((j, l) :: rest) q ids ds maxSl =
            penalize_liars epoch rest q ids ds maxSl := by
          simp [penalize_liars, hcurj]
        rcases ih q ids ds maxSl i k current hinv hndrest htail hcur with
          ⟨r, heq, h1, h2, h3⟩
        exact ⟨r, hred ▸ heq, h1, h2, h3⟩
      | some curj =>
        rcases penalize_step_facts l hinv hcurj with ⟨hz, hinv', hkeys', _, hesame, _⟩
        have hcur' : lookupKey i (setKey j (curj / 2 ^ l) ids) = some current := by
          rw [lookupKey_setKey_ne hji, hcur]
        rcases ih (penalizeScan j (curj - curj / 2 ^ l) q.reverse).1.reverse
            (setKey j (curj / 2 ^ l) ids)
            (ds ++ [(j, epoch, -((curj - curj / 2 ^ l : Nat) : Int), "lie")])
            (if maxSl < curj - curj / 2 ^ l then curj - curj / 2 ^ l else maxSl)
            i k current hinv' hndrest htail hcur' with ⟨r0, heq0, h1, h2, h3⟩
        have hred : penalize_liars epoch ((j, l) :: rest) q ids ds maxSl =
            some { r0 with penalized := (curj - curj / 2 ^ l) + r0.penalized } := by
          simp [penalize_liars, hcurj, hz, heq0]
        refine ⟨{ r0 with penalized := (curj - curj / 2 ^ l) + r0.penalized },
          hred, h1, ?_, h3⟩
        show entrySum i r0.reputation_expiry + (current - current / 2 ^ k) = entrySum i q
        rw [← hesame i (fun hh => hji hh.symm)]
        exact h2

/-- What the distribution loop does: earning identities are exactly the
honest ones in order, each honest identity gains `r`, and keys grow by
exactly the honest identities. -/
theorem distributeLoop_spec (epoch r : Nat) :
    ∀ (honest : List Ident) (ids : List (Ident × Nat)) (ds : List Delta),
      honest.Nodup →
      (distributeLoop epoch r honest ids ds).2.2 = honest ∧
      (∀ j, getD (distributeLoop epoch r honest ids ds).1 j 0 =
        getD ids j 0 + (if j ∈ honest then r else 0)) ∧
      ((keysOf ids).Nodup → (keysOf (distributeLoop epoch r honest ids ds).1).Nodup) ∧
      (∀ j, j ∈ keysOf (distributeLoop epoch r honest ids ds).1 ↔
        j ∈ keysOf ids ∨ j ∈ honest) := by
  intro honest
  induction honest with
  | nil =>
    intro ids ds _
    exact ⟨rfl, fun j => by simp [distributeLoop], fun h => h, fun j => by
      simp [distributeLoop]⟩
  | cons i rest ih =>
    intro ids ds hnd
    have hinot : i ∉ rest := (List.nodup_cons.mp hnd).1
    have hndr : rest.Nodup := (List.nodup_cons.mp hnd).2
    have hux : distributeLoop epoch r (i :: rest) ids ds =
        (let ids0 := if (lookupKey i ids).isSome then ids else setKey i 0 ids
         let ids1 := setKey i (getD ids0 i 0 + r) ids0
         let res := distributeLoop epoch r rest ids1 (ds ++ [(i, epoch, (r : Int), "gain")])
         (res.1, res.2.1, i :: res.2.2)) := rfl
    set ids0 := if (lookupKey i ids).isSome then ids else setKey i 0 ids with hids0
    set ids1 := setKey i (getD ids0 i 0 + r) ids0 with hids1
    have hg0 : getD ids0 i 0 = getD ids i 0 := by
      rw [hids0]
      cases hlk : lookupKey i ids with
      | none => simp [getD, hlk, lookupKey_setKey_self]
      | some v => simp [hlk]
    have hg0ne : ∀ j, i ≠ j → getD ids0 j 0 = getD ids j 0 := by
      intro j hij
      rw [hids0]
      cases hlk : lookupKey i ids with
      | none => simp [getD_setKey_ne hij, hlk]
      | some v => simp [hlk]
    have hg1 : getD ids1 i 0 = getD ids i 0 + r := by
      rw [hids1, getD_setKey_self, hg0]
    have hg1ne : ∀ j, i ≠ j → getD ids1 j 0 = getD ids j 0 := by
      intro j hij
      rw [hids1, getD_setKey_ne hij, hg0ne j hij]
    have hk0 : ∀ j, j ∈ keysOf ids0 ↔ j ∈ keysOf ids ∨ j = i := by
      intro j
      rw [hids0]
      cases hlk : lookupKey i ids with
      | none =>
        have : i ∉ keysOf ids := by
          intro hm
          rcases Option.isSome_iff_exists.mp (lookupKey_isSome_iff.mpr hm) with ⟨v, hv⟩
          rw [hv] at hlk
          exact Option.noConfusion hlk
        simp [keysOf_setKey_not_mem this]
      | some v =>
        simp only [Option.isSome_some, if_pos]
        constructor
        · exact Or.inl
        · intro h
          rcases h with h | h
          · exact h
          · exact h ▸ mem_keysOf_of_lookupKey hlk
    have hk1 : ∀ j, j ∈ keysOf ids1 ↔ j ∈ keysOf ids ∨ j = i := by
      intro j
      rw [hids1]
      have hi0 : i ∈ keysOf ids0 := (hk0 i).mpr (Or.inr rfl)
      rw [keysOf_setKey_mem hi0]
      exact hk0 j
    have hn1 : (keysOf ids).Nodup → (keysOf ids1).Nodup := by
      intro h
      apply nodup_keysOf_setKey
      rw [hids0]
      cases hlk : lookupKey i ids with
      | none => simpa using nodup_keysOf_setKey h
      | some v => simpa using h
    rcases ih ids1 (ds ++ [(i, epoch, (r : Int), "gain")]) hndr with
      ⟨ihe, ihg, ihn, ihk⟩
    rw [hux]
    refine ⟨by simpa using ihe, ?_, ?_, ?_⟩
    · intro j
      simp only
      rw [ihg j]
      by_cases hij : j = i
      · subst hij
        rw [hg1, if_neg (by simpa using hinot), if_pos (List.mem_cons_self _ _)]
        omega
      · rw [hg1ne j (fun hh => hij hh.symm)]
        by_cases hjr : j ∈ rest
        · rw [if_pos hjr, if_pos (List.mem_cons_of_mem _ hjr)]
        · rw [if_neg hjr, if_neg (by
            intro hm
            rcases List.mem_cons.mp hm with hm | hm
            · exact hij hm
            · exact hjr hm)]
    · intro h
      exact ihn (hn1 h)
    · intro j
      rw [ihk j, hk1 j]
      constructor
      · intro h
        rcases h with (h | h) | h
        · exact Or.inl h
        · exact Or.inr (h ▸ List.mem_cons_self _ _)
        · exact Or.inr (List.mem_cons_of_mem _ h)
      · intro h
        rcases h with h | h
        · exact Or.inl (Or.inl h)
        · rcases List.mem_cons.mp h with h | h
          · exact Or.inl (Or.inr h)
          · exact Or.inr h

/-- Membership in the honest-filter accumulator. -/
theorem honestAcc_mem (errors liars : List (Ident × Nat)) :
    ∀ (honests : List (Ident × Nat)) (acc : List Ident) (j : Ident),
      j ∈ honestAcc errors liars honests acc ↔
        j ∈ acc ∨ ∃ t, (j, t) ∈ honests ∧ getD liars j 0 = 0 ∧ getD errors j 0 ≤ t := by
  intro honests
  induction honests with
  | nil =>
    intro acc j
    simp [honestAcc]
  | cons p rest ih =>
    rcases p with ⟨i, t⟩
    intro acc j
    rw [show honestAcc errors liars ((i, t) :: rest) acc =
        honestAcc errors liars rest
          (if getD liars i 0 = 0 ∧ getD errors i 0 ≤ t ∧ i ∉ acc then acc ++ [i] else acc)
      from rfl, ih]
    by_cases hc : getD liars i 0 = 0 ∧ getD errors i 0 ≤ t ∧ i ∉ acc
    · rw [if_pos hc]
      constructor
      · intro h
        rcases h with h | ⟨t', ht', hc'⟩
        · rcases List.mem_append.mp h with h | h
          · exact Or.inl h
          · have hji : j = i := by simpa using h
            exact Or.inr ⟨t, by rw [hji]; exact ⟨List.mem_cons_self _ _, hc.1, hc.2.1⟩⟩
        · exact Or.inr ⟨t', List.mem_cons_of_mem _ ht', hc'⟩
      · intro h
        rcases h with h | ⟨t', ht', hc'⟩
        · exact Or.inl (List.mem_append_left _ h)
        · rcases List.mem_cons.mp ht' with h | h
          · obtain ⟨hji, _⟩ : j = i ∧ t' = t := by
              have := h
              rw [Prod.mk.injEq] at this
              exact this
            exact Or.inl (List.mem_append_right _ (by simp [hji]))
          · exact Or.inr ⟨t', h, hc'⟩
    · rw [if_neg hc]
      constructor
      · intro h
        rcases h with h | ⟨t', ht', hc'⟩
        · exact Or.inl h
        · exact Or.inr ⟨t', List.mem_cons_of_mem _ ht', hc'⟩
      · intro h
        rcases h with h | ⟨t', ht', hc'⟩
        · exact Or.inl h
        · rcases List.mem_cons.mp ht' with h | h
          · obtain ⟨hji, htt⟩ : j = i ∧ t' = t := by
              have := h
              rw [Prod.mk.injEq] at this
              exact this
            subst hji
            subst htt
            by_cases hacc : j ∈ acc
            · exact Or.inl hacc
            · exact absurd ⟨hc'.1, hc'.2, hacc⟩ hc
          · exact Or.inr ⟨t', h, hc'⟩

/-- The honest-filter accumulator never introduces duplicates. -/
theorem honestAcc_nodup (errors liars : List (Ident × Nat)) :
    ∀ (honests : List (Ident × Nat)) (acc : List Ident), acc.Nodup →
      (honestAcc errors liars honests acc).Nodup := by
  intro honests
  induction honests with
  | nil => intro acc h; simpa [honestAcc] using h
  | cons p rest ih =>
    rcases p with ⟨i, t⟩
    intro acc h
    rw [show honestAcc errors liars ((i, t) :: rest) acc =
        honestAcc errors liars rest
          (if getD liars i 0 = 0 ∧ getD errors i 0 ≤ t ∧ i ∉ acc then acc ++ [i] else acc)
      from rfl]
    apply ih
    by_cases hc : getD liars i 0 = 0 ∧ getD errors i 0 ≤ t ∧ i ∉ acc
    · rw [if_pos hc]
      simpa using List.Nodup.append h (by simp) (by simpa using fun hx => hc.2.2 hx)
    · rwa [if_neg hc]

/-- Distributing sums over a pointwise addition of two list maps. -/
theorem sum_map_add_nat {α : Type} (l : List α) (f g : α → Nat) :
    (l.map (fun x => f x + g x)).sum = (l.map f).sum + (l.map g).sum := by
  induction l with
  | nil => rfl
  | cons a rest ih =>
    simp only [List.map_cons, List.sum_cons, ih]
    omega

/-- Exchanging a double list sum. -/
theorem sum_map_comm {α γ : Type} (l₁ : List α) (l₂ : List γ) (f : α → γ → Nat) :
    (l₁.map (fun a => (l₂.map (f a)).sum)).sum =
      (l₂.map (fun b => (l₁.map (fun a => f a b)).sum)).sum := by
  induction l₁ with
  | nil =>
    simp only [List.map_nil, List.sum_nil]
    induction l₂ with
    | nil => rfl
    | cons b rest ih =>
      simp only [List.map_cons, List.sum_cons, ← ih, List.map_nil, List.sum_nil]
      rfl
  | cons a rest ih =>
    simp only [List.map_cons, List.sum_cons, ih, ← sum_map_add_nat]

/-- Summing `getD` of one packet over the identity map's keys gives the
packet's total, provided the packet's keys are covered and unduplicated. -/
theorem sum_getD_over_ids :
    ∀ (ids pkt : List (Ident × Nat)),
      (keysOf ids).Nodup → (keysOf pkt).Nodup →
      (∀ e ∈ pkt, e.1 ∈ keysOf ids) →
      (ids.map (fun p => getD pkt p.1 0)).sum = valsSum pkt := by
  intro ids
  induction ids with
  | nil =>
    intro pkt _ _ hcov
    cases pkt with
    | nil => simp [valsSum_nil]
    | cons e r =>
      exact absurd (hcov e (List.mem_cons_self _ _)) (by simp [keysOf])
  | cons p rest ih =>
    intro pkt hnd hndp hcov
    have hcons : (p.1 :: keysOf rest).Nodup := by simpa [keysOf] using hnd
    have hpnot : p.1 ∉ keysOf rest := (List.nodup_cons.mp hcons).1
    have hndr : (keysOf rest).Nodup := by
      have := (List.nodup_cons.mp hcons).2
      simpa [keysOf] using this
    have hmapc : rest.map (fun x => getD pkt x.1 0) =
        rest.map (fun x => getD (eraseKey p.1 pkt) x.1 0) := by
      apply List.map_congr_left
      intro x hx
      have hne : p.1 ≠ x.1 := fun hh => hpnot (hh ▸ key_mem_keysOf hx)
      rw [getD, getD, lookupKey_eraseKey_ne hne]
    have hcov' : ∀ e ∈ eraseKey p.1 pkt, e.1 ∈ keysOf rest := by
      intro e he
      have hne : e.1 ≠ p.1 := by
        intro hh
        exact not_mem_keysOf_eraseKey hndp (hh ▸ key_mem_keysOf he)
      have := hcov e (mem_of_mem_eraseKey he)
      simp only [keysOf, List.map_cons, List.mem_cons] at this
      rcases this with h | h
      · exact absurd h hne
      · simpa [keysOf] using h
    have hih := ih (eraseKey p.1 pkt) hndr (nodup_keysOf_eraseKey hndp) hcov'
    simp only [List.map_cons, List.sum_cons]
    rw [hmapc, hih]
    cases hlk : lookupKey p.1 pkt with
    | none =>
      have hget : getD pkt p.1 0 = 0 := by simp [getD, hlk]
      have hpe : p.1 ∉ keysOf pkt := by
        intro hm
        rcases Option.isSome_iff_exists.mp (lookupKey_isSome_iff.mpr hm) with ⟨v, hv⟩
        rw [hv] at hlk
        exact Option.noConfusion hlk
      rw [hget, eraseKey_of_not_mem hpe]
      omega
    | some v =>
      have hget : getD pkt p.1 0 = v := by simp [getD, hlk]
      have := valsSum_eraseKey hlk
      rw [hget]
      omega

/-- Under the balance invariant the identity-map total equals the expiry
queue total: a double-counting argument over identities and packets. -/
theorem QInv.sum_eq {ids : List (Ident × Nat)} {q : Queue} (h : QInv ids q) :
    valsSum ids = queueSum q := by
  have h1 : valsSum ids = (ids.map (fun p => entrySum p.1 q)).sum := by
    unfold valsSum
    congr 1
    apply List.map_congr_left
    intro p hp
    exact h.1 p hp
  have h2 : (ids.map (fun p => entrySum p.1 q)).sum =
      (q.map (fun pk => (ids.map (fun p => getD pk.2 p.1 0)).sum)).sum := by
    unfold entrySum
    exact sum_map_comm ids q (fun p pk => getD pk.2 p.1 0)
  have h3 : (q.map (fun pk => (ids.map (fun p => getD pk.2 p.1 0)).sum)).sum =
      queueSum q := by
    unfold queueSum
    congr 1
    apply List.map_congr_left
    intro pk hpk
    apply sum_getD_over_ids ids pk.2 h.2.2.1 (h.2.2.2 pk hpk)
    intro e he
    rcases (h.2.1 pk hpk e he).1 with ⟨p, hp, hpe⟩
    exact hpe ▸ key_mem_keysOf hp
  rw [h1, h2, h3]

/-- Lookup in the constant-valued packet built at distribution time. -/
theorem getD_map_const {v : Nat} :
    ∀ (l : List Ident) (j : Ident),
      getD (l.map (fun i => (i, v))) j 0 = if j ∈ l then v else 0 := by
  intro l
  induction l with
  | nil => intro j; simp
  | cons i rest ih =>
    intro j
    simp only [List.map_cons, getD_cons, ih]
    by_cases hij : i = j
    · subst hij
      simp
    · rw [if_neg hij]
      by_cases hjr : j ∈ rest
      · rw [if_pos hjr, if_pos (List.mem_cons_of_mem _ hjr)]
      · rw [if_neg hjr, if_neg (by
          intro hm
          rcases List.mem_cons.mp hm with hm | hm
          · exact hij hm.symm
          · exact hjr hm)]

/-- Keys of the constant-valued packet. -/
theorem keysOf_map_const {v : Nat} (l : List Ident) :
    keysOf (l.map (fun i => (i, v))) = l := by
  induction l with
  | nil => rfl
  | cons i rest ih => simp only [List.map_cons, keysOf, List.map_cons] at *; rw [ih]

/-- A member packet's entry is bounded by the queue-wide entry sum. -/
theorem getD_le_entrySum {pk : Packet} {q : Queue} (hpk : pk ∈ q) (j : Ident) :
    getD pk.2 j 0 ≤ entrySum j q := by
  unfold entrySum
  exact List.single_le_sum (fun x _ => Nat.zero_le x) _
    (List.mem_map.mpr ⟨pk, hpk, rfl⟩)

/-- `clean` keeps every positive entry and only drops zeros, so lookups are
unchanged under unique keys. -/
theorem clean_getD {ids : List (Ident × Nat)} (hnd : (keysOf ids).Nodup) (j : Ident) :
    getD (clean ids) j 0 = getD ids j 0 :=
  getD_filter_pos hnd

/-- `clean` leaves a duplicate-free key list duplicate-free. -/
theorem clean_nodup {ids : List (Ident × Nat)} (hnd : (keysOf ids).Nodup) :
    (keysOf (clean ids)).Nodup :=
  hnd.sublist (List.Sublist.map _ (List.filter_sublist ids))

/-- Every surviving entry of `clean` is positive. -/
theorem clean_pos {ids : List (Ident × Nat)} :
    ∀ p ∈ clean ids, 0 < p.2 := by
  intro p hp
  have := (List.mem_filter.mp hp).2
  simpa using this

/-- The balance invariant survives `clean`. -/
theorem QInv.clean_inv {ids : List (Ident × Nat)} {q : Queue} (h : QInv ids q) :
    QInv (clean ids) q := by
  refine QInv.mk' (fun j => ?_) (fun pk hpk e he => ?_) (clean_nodup h.2.2.1)
    (fun pk hpk => h.2.2.2 pk hpk)
  · rw [clean_getD h.2.2.1, h.balance]
  · have hpos := (h.2.1 pk hpk e he).2
    have hle : e.2 ≤ entrySum e.1 q := by
      have hpkt : getD pk.2 e.1 0 = e.2 := by
        have hee : (e.1, e.2) ∈ pk.2 := by
          have : e = (e.1, e.2) := by cases e; rfl
          rw [← this]; exact he
        rw [getD, lookupKey_eq_of_mem_nodup hee (h.2.2.2 pk hpk), Option.getD_some]
      rw [← hpkt]
      exact getD_le_entrySum hpk e.1
    have hpose : 0 < getD (clean ids) e.1 0 := by
      rw [clean_getD h.2.2.1, h.balance]
      omega
    exact ⟨mem_keysOf_of_getD_pos hpose, hpos⟩

/-- After distribution, the appended expiry packet restores the balance
invariant against the cleaned identity map. -/
theorem QInv_after_distribute (epoch total thr : Nat) (honest : List Ident)
    {ids : List (Ident × Nat)} {q : Queue} {ds : List Delta} (hinv : QInv ids q)
    (hn : honest.Nodup) :
    ∀ dr, dr = distribute_reputation epoch total honest ids ds →
      ∀ rper, rper = dr.distributed /
          (if dr.earning.length = 0 then 1 else dr.earning.length) →
        QInv (clean dr.identities)
          (if 0 < dr.distributed then
            q ++ [(thr, dr.earning.map (fun i => (i, rper)))] else q) := by
  intro dr hdr rper hrper
  by_cases hr : total / (if honest.length = 0 then 1 else honest.length) = 0
  · have hdr' : dr = ⟨ids, ds, 0, []⟩ := by
      rw [hdr]
      unfold distribute_reputation
      rw [if_pos hr]
    rw [hdr']
    simp only [Nat.lt_irrefl, if_neg (by omega : ¬ (0:Nat) < 0)]
    exact hinv.clean_inv
  · rcases distributeLoop_spec epoch (total / (if honest.length = 0 then 1 else honest.length))
        honest ids ds hn with ⟨hearn, hget, hnod, hkeys⟩
    have hdr' : dr = ⟨(distributeLoop epoch
          (total / (if honest.length = 0 then 1 else honest.length)) honest ids ds).1,
        (distributeLoop epoch
          (total / (if honest.length = 0 then 1 else honest.length)) honest ids ds).2.1,
        (total / (if honest.length = 0 then 1 else honest.length)) *
          (distributeLoop epoch
            (total / (if honest.length = 0 then 1 else honest.length)) honest ids ds).2.2.length,
        (distributeLoop epoch
          (total / (if honest.length = 0 then 1 else honest.length)) honest ids ds).2.2⟩ := by
      rw [hdr]
      unfold distribute_reputation
      rw [if_neg hr]
    by_cases hlen : honest.length = 0
    · have hnil : honest = [] := List.length_eq_zero.mp hlen
      subst hnil
      have : distributeLoop epoch
          (total / (if ([] : List Ident).length = 0 then 1 else ([] : List Ident).length))
          [] ids ds = (ids, ds, []) := rfl
      rw [hdr', this]
      simp only [List.length_nil, Nat.mul_zero, Nat.lt_irrefl,
        if_neg (by omega : ¬ (0:Nat) < 0)]
      exact hinv.clean_inv
    · have hlpos : 0 < honest.length := Nat.pos_of_ne_zero hlen
      have hrpos : 0 < total / (if honest.length = 0 then 1 else honest.length) :=
        Nat.pos_of_ne_zero hr
      have hrper : rper = total / (if honest.length = 0 then 1 else honest.length) := by
        rw [hrper, hdr']
        simp only [hearn]
        rw [if_neg hlen]
        exact Nat.mul_div_cancel _ hlpos
      rw [hdr']
      simp only [hearn, hrper]
      rw [if_pos (Nat.mul_pos hrpos hlpos)]
      set r0 := total / (if honest.length = 0 then 1 else honest.length) with hr0
      set ids' := (distributeLoop epoch r0 honest ids ds).1 with hids'
      have hndk : (keysOf ids').Nodup := hnod hinv.2.2.1
      refine QInv.mk' (fun j => ?_) (fun pk hpk e he => ?_) (clean_nodup hndk) ?_
      · rw [clean_getD hndk, hget j, entrySum_append, entrySum_cons, entrySum_nil,
          getD_map_const, hinv.balance j]
        omega
      · rcases List.mem_append.mp hpk with hpk' | hpk'
        · have hc := hinv.2.1 pk hpk' e he
          have hle : e.2 ≤ entrySum e.1 q := by
            have hpkt : getD pk.2 e.1 0 = e.2 := by
              have hee : (e.1, e.2) ∈ pk.2 := by
                have : e = (e.1, e.2) := by cases e; rfl
                rw [← this]; exact he
              rw [getD, lookupKey_eq_of_mem_nodup hee (hinv.2.2.2 pk hpk'), Option.getD_some]
            rw [← hpkt]
            exact getD_le_entrySum hpk' e.1
          have hpose : 0 < getD (clean ids') e.1 0 := by
            rw [clean_getD hndk, hget e.1, hinv.balance e.1]
            have := hc.2
            omega
          exact ⟨mem_keysOf_of_getD_pos hpose, hc.2⟩
        · have hpkeq : pk = (thr, honest.map (fun i => (i, r0))) := by simpa using hpk'
          rw [hpkeq] at he
          rcases List.mem_map.mp he with ⟨i, hi, hie⟩
          have hpose : 0 < getD (clean ids') e.1 0 := by
            rw [clean_getD hndk, hget e.1, ← hie]
            simp only [if_pos hi]
            omega
          refine ⟨mem_keysOf_of_getD_pos hpose, ?_⟩
          rw [← hie]
          exact hrpos
      · intro pk hpk
        rcases List.mem_append.mp hpk with hpk' | hpk'
        · exact hinv.2.2.2 pk hpk'
        · have hpkeq : pk = (thr, honest.map (fun i => (i, r0))) := by simpa using hpk'
          rw [hpkeq]
          simpa [keysOf_map_const] using hn

/-- The live part of `update` always succeeds from a balanced state and
re-establishes the balance invariant; it tracks the supplied epoch and emits
exactly one snapshot row, for that epoch, holding the cleaned identity map. -/
theorem update_live_spec (s : TRS) (epoch : Nat)
    (rev hon err li : List (Ident × Nat))
    (hinv : QInv s.identities s.reputation_expiry) :
    ∃ s' out, update_live s epoch rev hon err li = some (s', out) ∧
      QInv s'.identities s'.reputation_expiry ∧
      s'.epoch = epoch ∧ s'.trs_file_json = s.trs_file_json ∧
      out.snapshots = [(epoch, s'.identities)] := by
  obtain ⟨ids1, ds1, heq1, hinv1, hk1, hs1, hpt1⟩ :=
    expire_reputation_spec epoch s.witnessing_acts s.reputation_expiry s.identities
      s.insert_reputation_differences hinv
  obtain ⟨pr, heqp, hinvp, hkp, hlfp, hffp, hnewp⟩ :=
    penalize_liars_main epoch li
      (s.reputation_expiry.dropWhile (duePred s.witnessing_acts)) ids1 ds1
      s.max_reputation_slashed hinv1
  have hn : (honestAcc err li hon []).Nodup := honestAcc_nodup err li hon [] (by simp)
  simp only [update_live, filter_honest_identities, heq1, heqp]
  refine ⟨_, _, rfl, ?_, rfl, rfl, rfl⟩
  exact QInv_after_distribute epoch
    (s.leftover_reputation +
      queueSum (s.reputation_expiry.takeWhile (duePred s.witnessing_acts)) +
      issue_reputation s.witnessing_acts ((rev.map (·.2)).sum) + pr.penalized)
    (s.witnessing_acts + (rev.map (·.2)).sum + reputation_expiration)
    (honestAcc err li hon []) hinvp hn _ rfl _ rfl

/-- `update` always succeeds from a balanced state, re-establishes the
balance invariant, and records the supplied epoch. -/
theorem update_spec (s : TRS) (epoch : Nat) (rev hon err li : List (Ident × Nat))
    (hinv : QInv s.identities s.reputation_expiry) :
    ∃ s' out, update s epoch rev hon err li = some (s', out) ∧
      QInv s'.identities s'.reputation_expiry ∧
      s'.epoch = epoch ∧ s'.trs_file_json = s.trs_file_json := by
  by_cases hgap : s.epoch ≠ 0 ∧ s.epoch + 1 < epoch
  · obtain ⟨ids1, ds1, heq1, hinv1, hk1, hs1, hpt1⟩ :=
      expire_reputation_spec (s.epoch + 1) s.witnessing_acts s.reputation_expiry
        s.identities s.insert_reputation_differences hinv
    have hphantom : expire_reputation_in_next_epoch s =
        some { s with
          reputation_expiry := s.reputation_expiry.dropWhile (duePred s.witnessing_acts)
          identities := ids1
          insert_reputation_differences := ds1
          leftover_reputation := s.leftover_reputation +
            queueSum (s.reputation_expiry.takeWhile (duePred s.witnessing_acts)) } := by
      simp only [expire_reputation_in_next_epoch, heq1]
    obtain ⟨s3, out, heql, hinv3, hep3, hfl3, _⟩ :=
      update_live_spec
        { s with
          reputation_expiry := s.reputation_expiry.dropWhile (duePred s.witnessing_acts)
          identities := clean ids1
          insert_reputation_differences := ds1
          leftover_reputation := s.leftover_reputation +
            queueSum (s.reputation_expiry.takeWhile (duePred s.witnessing_acts)) }
        epoch rev hon err li (QInv.clean_inv hinv1)
    refine ⟨s3, { out with
        snapshots := (s.epoch + 1, clean ids1) :: out.snapshots }, ?_, hinv3, hep3,
      by rw [hfl3]⟩
    rw [update, if_pos hgap, hphantom]
    simp only [heql]
  · refine ?_
    obtain ⟨s', out, heq, hinv', hep, hfl, _⟩ :=
      update_live_spec s epoch rev hon err li hinv
    refine ⟨s', out, ?_, hinv', hep, hfl⟩
    rw [update, if_neg hgap]
    exact heq

/-- Any update sequence from a balanced state succeeds and stays balanced. -/
theorem runUpdates_balanced :
    ∀ (inputs : List UpdateInput) (s : TRS),
      QInv s.identities s.reputation_expiry →
      ∃ s', runUpdates s inputs = some s' ∧
        QInv s'.identities s'.reputation_expiry := by
  intro inputs
  induction inputs with
  | nil => intro s hinv; exact ⟨s, rfl, hinv⟩
  | cons u rest ih =>
    intro s hinv
    obtain ⟨s1, out, hequ, hinv1, _, _⟩ :=
      update_spec s u.epoch u.revealing u.honests u.errors u.liars hinv
    obtain ⟨s', heqr, hinv'⟩ := ih s1 hinv1
    refine ⟨s', ?_, hinv'⟩
    simp only [runUpdates, hequ, heqr]

/-! ## Eligibility functions (exact rational model of the float code) -/

/-- Python `round(x, 0)`: round half to even (banker's rounding), modelled
over exact rationals (float representation error is outside the model). -/
def pyRound (q : ℚ) : ℤ :=
  if q - ⌊q⌋ < 1 / 2 then ⌊q⌋
  else if 1 / 2 < q - ⌊q⌋ then ⌊q⌋ + 1
  else if 2 ∣ ⌊q⌋ then ⌊q⌋ else ⌊q⌋ + 1

/-- Python `int(x)` on a float: truncation toward zero. -/
def pyInt (q : ℚ) : ℤ := if q < 0 then -⌊-q⌋ else ⌊q⌋

/-- `magic_line` (lines 432-438): `y = m*x + k`, low-saturated at 0, rounded. -/
def magic_line (x m k : ℚ) : ℚ :=
  let res := m * x + k
  if res < 0 then 0 else (pyRound res : ℚ)

/-- `calculate_trapezoid_triangle` (lines 440-456). `none` models the
ZeroDivisionError raised when `active_reputed_ids_len` is 0 (the `average`)
or 1 (the slope `m = -k / (active_reputed_ids_len - 1)`). -/
def calculate_trapezoid_triangle (total_active_rep : ℚ)
    (active_reputed_ids_len : Nat) (minimum_rep : ℚ) : Option (List ℚ × ℚ) :=
  if active_reputed_ids_len = 0 then none
  else
    let average := total_active_rep / (active_reputed_ids_len : ℚ)
    let k := (3 / 2 : ℚ) * (average - minimum_rep)
    if active_reputed_ids_len = 1 then none
    else
      let m := -k / ((active_reputed_ids_len : ℚ) - 1)
      let triangle := (List.range active_reputed_ids_len).map
        (fun i => magic_line (i : ℚ) m k)
      some (triangle, triangle.sum)

/-- Stable insertion for the descending sort. -/
def insertDesc (p : Ident × Nat) : List (Ident × Nat) → List (Ident × Nat)
  | [] => [p]
  | q :: rest => if q.2 ≤ p.2 then p :: q :: rest else q :: insertDesc p rest

/-- Python's stable `sorted(..., key=reputation, reverse=True)`. -/
def sortDesc : List (Ident × Nat) → List (Ident × Nat)
  | [] => []
  | p :: rest => insertDesc p (sortDesc rest)

/-- `trapezoidal_eligibility` (lines 458-482). The float remainder
`remaining % len` is `x - len*⌊x/len⌋` (Python float modulo). -/
def trapezoidal_eligibility (identities : List (Ident × Nat)) :
    Option (List (Ident × ℤ) × ℚ) :=
  let active_reputed_ids := sortDesc identities
  let total_active_rep : ℚ := (((identities.map (·.2)).sum : Nat) : ℚ)
  if active_reputed_ids.length = 0 then some ([], 0)
  else
    let minimum_rep : ℚ := (((active_reputed_ids.getLastD ("", 0)).2 : Nat) : ℚ)
    match calculate_trapezoid_triangle total_active_rep active_reputed_ids.length
        minimum_rep with
    | none => none
    | some (triangle, total_triangle_reputation) =>
      let remaining_reputation := total_active_rep - total_triangle_reputation
      let offset_reputation := remaining_reputation / (active_reputed_ids.length : ℚ)
      let ids_with_extra_rep := remaining_reputation -
        (active_reputed_ids.length : ℚ) *
          (⌊remaining_reputation / (active_reputed_ids.length : ℚ)⌋ : ℚ)
      let eligibility := ((active_reputed_ids.zip triangle).enum).map
        (fun e => (e.2.1.1,
          pyInt (e.2.2 + offset_reputation +
            (if (e.1 : ℚ) < ids_with_extra_rep then 1 else 0))))
      some (eligibility, total_active_rep)

/-- `calculate_eligibilities` (lines 484-492). -/
def calculate_eligibilities (identities : List (Ident × Nat)) :
    Option (List (Ident × ℚ)) :=
  match trapezoidal_eligibility identities with
  | none => none
  | some (eligibility, total_active_rep) =>
    some (identities.map (fun p =>
      (p.1, (((getD eligibility p.1 (0 : ℤ) : ℤ) : ℚ) + 1) /
        (total_active_rep + (identities.length : ℚ)))))

/-- Cumulative issuance along a run: each step issues against the counter
and then advances it by the new witnessing acts, as `update` does. -/
def issuanceRun : Nat → List Nat → Nat
  | _, [] => 0
  | wa, n :: rest => issue_reputation wa n + issuanceRun (wa + n) rest

/-- The issuance cap bounds every run. -/
theorem issuanceRun_le :
    ∀ (l : List Nat) (wa : Nat),
      wa + issuanceRun wa l ≤ max wa reputation_issuance_stop := by
  intro l
  induction l with
  | nil =>
    intro wa
    simp [issuanceRun]
  | cons n rest ih =>
    intro wa
    have hih := ih (wa + n)
    rw [issuanceRun]
    unfold issue_reputation
    by_cases hge : wa ≥ reputation_issuance_stop
    · rw [if_pos hge]
      omega
    · rw [if_neg hge]
      omega

/-- Concrete engine state at epoch 5 with empty holdings. -/
def stateEpoch5 : TRS :=
  { trs_file_json := "trs.json"
    witnessing_acts := 0
    leftover_reputation := 0
    reputation_expiry := []
    epoch := 5
    identities := []
    insert_reputation_differences := []
    max_reputation_distributed := 0
    max_reputation_slashed := 0 }

/-- Concrete engine state at epoch 0 holding a packet already due. -/
def stateEpoch0Due : TRS :=
  { trs_file_json := "trs.json"
    witnessing_acts := 5
    leftover_reputation := 0
    reputation_expiry := [(3, [("A", 4)])]
    epoch := 0
    identities := [("A", 4)]
    insert_reputation_differences := []
    max_reputation_distributed := 0
    max_reputation_slashed := 0 }

/-- Concrete engine state at epoch 1 holding a packet already due. -/
def stateEpoch1Due : TRS :=
  { trs_file_json := "trs.json"
    witnessing_acts := 5
    leftover_reputation := 2
    reputation_expiry := [(3, [("A", 4)])]
    epoch := 1
    identities := [("A", 4)]
    insert_reputation_differences := []
    max_reputation_distributed := 0
    max_reputation_slashed := 0 }

/-- C1: for every input sequence fed to a fresh engine, every `update` call
completes, and after it (its final `clean` included) the sum of the
reputation values in the identity map equals the sum over all packets of
the expiry queue of the sum of their per-identity amounts. -/
theorem claim_C1_map_sum_equals_queue_sum (path : String)
    (inputs : List UpdateInput) :
    ∃ s', runUpdates (initial_trs path) inputs = some s' ∧
      valsSum s'.identities = queueSum s'.reputation_expiry := by
  have h0 : QInv (initial_trs path).identities (initial_trs path).reputation_expiry := by
    show QInv [] []
    decide
  obtain ⟨s', heq, hinv⟩ := runUpdates_balanced inputs (initial_trs path) h0
  exact ⟨s', heq, hinv.sum_eq⟩

/-- C3: `issue_reputation` returns exactly
`max(0, min(2^20, witnessing_acts + new_wa) - witnessing_acts)`; once the
counter is at least `2^20` it returns 0 on every input, and the cumulative
issuance along any run starting from a fresh counter never exceeds `2^20`. -/
theorem claim_C3_issue_reputation :
    (∀ wa n : Nat, (issue_reputation wa n : Int) =
      max 0 (min (2 ^ 20) ((wa : Int) + n) - wa)) ∧
    (∀ wa n : Nat, 2 ^ 20 ≤ wa → issue_reputation wa n = 0) ∧
    (∀ l : List Nat, issuanceRun 0 l ≤ 2 ^ 20) := by
  have hstop : reputation_issuance_stop = 1048576 := by decide
  have h2i : (2 : Int) ^ 20 = 1048576 := by norm_num
  have h2n : (2 : Nat) ^ 20 = 1048576 := by norm_num
  refine ⟨?_, ?_, ?_⟩
  · intro wa n
    unfold issue_reputation
    rw [hstop, h2i]
    by_cases hge : wa ≥ 1048576
    · rw [if_pos hge]
      push_cast
      omega
    · rw [if_neg hge]
      have hle : wa ≤ min 1048576 (wa + n) := by omega
      rw [Nat.cast_sub hle, Nat.cast_min]
      push_cast
      omega
  · intro wa n h
    unfold issue_reputation
    rw [if_pos (by rw [hstop]; omega)]
  · intro l
    have h := issuanceRun_le l 0
    rw [hstop] at h
    rw [h2n]
    omega

/-- C3 witness: the cap branch at a concrete over-cap counter. -/
theorem claim_C3_issue_reputation_witness :
    2 ^ 20 ≤ 2 ^ 20 + 5 ∧ issue_reputation (2 ^ 20 + 5) 7 = 0 :=
  ⟨by norm_num, claim_C3_issue_reputation.2.1 (2 ^ 20 + 5) 7 (by norm_num)⟩

/-- C5: the honest filter returns exactly the identities appearing in the
honest counter with zero lies and at least as many honest reveals as
errors, each exactly once. -/
theorem claim_C5_filter_honest_identities
    (honests errors liars : List (Ident × Nat))
    (hnd : (keysOf honests).Nodup) :
    (∀ j, j ∈ (filter_honest_identities honests errors liars).1 ↔
      j ∈ keysOf honests ∧ getD liars j 0 = 0 ∧
        getD errors j 0 ≤ getD honests j 0) ∧
    (filter_honest_identities honests errors liars).1.Nodup := by
  constructor
  · intro j
    show j ∈ honestAcc errors liars honests [] ↔ _
    rw [honestAcc_mem]
    simp only [List.not_mem_nil, false_or]
    constructor
    · rintro ⟨t, hmem, hl, he⟩
      have hlk : lookupKey j honests = some t := lookupKey_eq_of_mem_nodup hmem hnd
      have hg : getD honests j 0 = t := by rw [getD, hlk, Option.getD_some]
      exact ⟨mem_keysOf_of_lookupKey hlk, hl, hg ▸ he⟩
    · rintro ⟨hmem, hl, he⟩
      rcases Option.isSome_iff_exists.mp (lookupKey_isSome_iff.mpr hmem) with ⟨v, hv⟩
      have hg : getD honests j 0 = v := by rw [getD, hv, Option.getD_some]
      exact ⟨v, mem_of_lookupKey hv, hl, hg ▸ he⟩
  · exact honestAcc_nodup errors liars honests [] (by simp)

/-- C5 witness at a concrete trio of counters. -/
theorem claim_C5_filter_honest_identities_witness :
    (keysOf [(("A" : Ident), 2), ("B", 1), ("C", 1)]).Nodup ∧
    ((∀ j, j ∈ (filter_honest_identities [(("A" : Ident), 2), ("B", 1), ("C", 1)]
        [("B", 2)] [("C", 1)]).1 ↔
      j ∈ keysOf [(("A" : Ident), 2), ("B", 1), ("C", 1)] ∧
        getD [(("C" : Ident), 1)] j 0 = 0 ∧
        getD [(("B" : Ident), 2)] j 0 ≤
          getD [(("A" : Ident), 2), ("B", 1), ("C", 1)] j 0) ∧
    (filter_honest_identities [(("A" : Ident), 2), ("B", 1), ("C", 1)]
        [("B", 2)] [("C", 1)]).1.Nodup) :=
  ⟨by decide, claim_C5_filter_honest_identities _ _ _ (by decide)⟩

/-- C6 counterexample: an `update` call with an epoch below the stored one
is not rejected — it returns normally and mutates the state (the stored
epoch becomes the smaller value). -/
theorem claim_C6_counterexample :
    stateEpoch5.epoch = 5 ∧
    (update stateEpoch5 3 [] [] [] []).map (fun r => r.1.epoch) = some 3 :=
  ⟨rfl, by decide⟩

/-- C6 (amended): `update` performs no epoch-monotonicity check; a call
with `e ≤ stored_epoch` is processed like any other update — it succeeds
and the stored epoch becomes `e` (callers must detect and drop stale
epochs themselves). -/
theorem claim_C6_amended_no_epoch_check (s : TRS) (e : Nat)
    (rev hon err li : List (Ident × Nat))
    (hinv : QInv s.identities s.reputation_expiry) (_hle : e ≤ s.epoch) :
    ∃ s' out, update s e rev hon err li = some (s', out) ∧ s'.epoch = e := by
  obtain ⟨s', out, heq, _, hep, _⟩ := update_spec s e rev hon err li hinv
  exact ⟨s', out, heq, hep⟩

/-- C6 witness: the amended claim at the concrete stale call. -/
theorem claim_C6_amended_no_epoch_check_witness :
    QInv stateEpoch5.identities stateEpoch5.reputation_expiry ∧
    3 ≤ stateEpoch5.epoch ∧
    (∃ s' out, update stateEpoch5 3 [] [] [] [] = some (s', out) ∧ s'.epoch = 3) :=
  ⟨by decide, by decide,
    claim_C6_amended_no_epoch_check stateEpoch5 3 [] [] [] [] (by decide) (by decide)⟩

/-- C9: with an empty snapshot path, `persist_trs` returns normally without
writing anything (the source logs and returns; no exception reaches the
caller, and no state field is assigned). -/
theorem claim_C9_persist_empty_path (s : TRS) (h : s.trs_file_json = "") :
    persist_trs s = none := by
  rw [persist_trs, if_pos h]

/-- C9 witness at a concrete path-less engine. -/
theorem claim_C9_persist_empty_path_witness :
    (initial_trs "").trs_file_json = "" ∧ persist_trs (initial_trs "") = none :=
  ⟨rfl, claim_C9_persist_empty_path (initial_trs "") rfl⟩

/-- C8: with a non-empty snapshot path, `persist_trs` then `load_trs`
restores exactly the persisted quintuple, and persisting again writes the
same snapshot value — hence byte-identical file contents, `json.dump`
being deterministic in the data. -/
theorem claim_C8_persist_load_roundtrip (s : TRS) (h : s.trs_file_json ≠ "") :
    ∃ d, persist_trs s = some d ∧
      (load_trs s d).witnessing_acts = s.witnessing_acts ∧
      (load_trs s d).leftover_reputation = s.leftover_reputation ∧
      (load_trs s d).reputation_expiry = s.reputation_expiry ∧
      (load_trs s d).epoch = s.epoch ∧
      (load_trs s d).identities = s.identities ∧
      persist_trs (load_trs s d) = some d := by
  refine ⟨⟨s.witnessing_acts, s.leftover_reputation, s.reputation_expiry, s.epoch,
    s.identities⟩, ?_, rfl, rfl, rfl, rfl, rfl, ?_⟩
  · rw [persist_trs, if_neg h]
  · rw [persist_trs]
    rw [if_neg (show ¬(load_trs s ⟨s.witnessing_acts, s.leftover_reputation,
      s.reputation_expiry, s.epoch, s.identities⟩).trs_file_json = "" from h)]
    rfl

/-- C8 witness at a concrete engine with a file name. -/
theorem claim_C8_persist_load_roundtrip_witness :
    stateEpoch5.trs_file_json ≠ "" ∧
    (∃ d, persist_trs stateEpoch5 = some d ∧
      (load_trs stateEpoch5 d).witnessing_acts = stateEpoch5.witnessing_acts ∧
      (load_trs stateEpoch5 d).leftover_reputation =
        stateEpoch5.leftover_reputation ∧
      (load_trs stateEpoch5 d).reputation_expiry = stateEpoch5.reputation_expiry ∧
      (load_trs stateEpoch5 d).epoch = stateEpoch5.epoch ∧
      (load_trs stateEpoch5 d).identities = stateEpoch5.identities ∧
      persist_trs (load_trs stateEpoch5 d) = some d) :=
  ⟨by decide, claim_C8_persist_load_roundtrip stateEpoch5 (by decide)⟩

/-- C2: a liar `i` with multiplicity `k` and current reputation `current`
is set to `retained = current / 2 ^ k` (the source's
`int(current * 0.5 ** k)`), the penalty `current - retained` leaves the
liar's packet entries, a `(-penalty, lie)` delta is buffered — and in the
concrete S3 scenario (reputation 100 in one packet, two lies) the packet
entry drops to 25 with a `(-75, lie)` delta; a two-packet instance shows
the scan drains the newest packet first. -/
theorem claim_C2_penalize_liars :
    (∀ (epoch : Nat) (liars : List (Ident × Nat)) (q : Queue)
        (ids : List (Ident × Nat)) (ds : List Delta) (maxSl : Nat)
        (i : Ident) (k current : Nat),
      QInv ids q → (keysOf liars).Nodup → (i, k) ∈ liars →
      lookupKey i ids = some current →
      ∃ r, penalize_liars epoch liars q ids ds maxSl = some r ∧
        lookupKey i r.identities = some (current / 2 ^ k) ∧
        entrySum i r.reputation_expiry + (current - current / 2 ^ k) = entrySum i q ∧
        (i, epoch, -((current - current / 2 ^ k : Nat) : Int), "lie") ∈ r.deltas) ∧
    penalize_liars 7 [("A", 2)] [(20002, [("A", 100)])] [("A", 100)] [] 0 =
      some ⟨[(20002, [("A", 25)])], [("A", 25)], [("A", 7, -75, "lie")], 75, 75⟩ ∧
    penalize_liars 9 [("A", 1)] [(50, [("A", 60)]), (80, [("A", 40)])]
        [("A", 100)] [] 0 =
      some ⟨[(50, [("A", 50)]), (80, [])], [("A", 50)], [("A", 9, -50, "lie")],
        50, 50⟩ :=
  ⟨fun epoch liars q ids ds maxSl i k current hinv hnd hmem hcur =>
    penalize_liars_liar_spec epoch liars q ids ds maxSl i k current hinv hnd hmem hcur,
   by decide, by decide⟩

/-- C2 witness: the general part applied at the S3 scenario. -/
theorem claim_C2_penalize_liars_witness :
    QInv [(("A" : Ident), 100)] [(20002, [("A", 100)])] ∧
    (keysOf [(("A" : Ident), 2)]).Nodup ∧
    (("A", 2) ∈ [(("A" : Ident), 2)]) ∧
    lookupKey "A" [(("A" : Ident), 100)] = some 100 ∧
    (∃ r, penalize_liars 7 [("A", 2)] [(20002, [("A", 100)])] [("A", 100)] [] 0 =
        some r ∧
      lookupKey "A" r.identities = some (100 / 2 ^ 2) ∧
      entrySum "A" r.reputation_expiry + (100 - 100 / 2 ^ 2) =
        entrySum "A" [(20002, [("A", 100)])] ∧
      ("A", 7, -((100 - 100 / 2 ^ 2 : Nat) : Int), "lie") ∈ r.deltas) :=
  ⟨by decide, by decide, by decide, by decide,
    claim_C2_penalize_liars.1 7 [("A", 2)] [(20002, [("A", 100)])] [("A", 100)] [] 0
      "A" 2 100 (by decide) (by decide) (by decide) (by decide)⟩

/-- C10: `penalize_liars` succeeds from a balanced state and only touches
liar identities that are present in the identity map: every other identity
keeps its map entry and all its packet entries (and packet thresholds and
count are preserved), and every buffered delta names a liar present in the
map — so a liar absent from the map incurs no penalty, no packet change and
no delta. -/
theorem claim_C10_penalize_liars_frame (epoch : Nat)
    (liars : List (Ident × Nat)) (q : Queue) (ids : List (Ident × Nat))
    (ds : List Delta) (maxSl : Nat) (hinv : QInv ids q) :
    ∃ r, penalize_liars epoch liars q ids ds maxSl = some r ∧
      (∀ j, NotTouched liars ids j →
        lookupKey j r.identities = lookupKey j ids) ∧
      List.Forall₂ (PacketFrame (NotTouched liars ids)) q r.reputation_expiry ∧
      (∃ new, r.deltas = ds ++ new ∧
        ∀ d ∈ new, (∃ k, (d.1, k) ∈ liars) ∧ d.1 ∈ keysOf ids) := by
  obtain ⟨r, heq, _, _, hlf, hff, hnew⟩ :=
    penalize_liars_main epoch liars q ids ds maxSl hinv
  exact ⟨r, heq, hlf, hff, hnew⟩

/-- C10 witness: a liar absent from the map next to an unrelated honest
identity. -/
theorem claim_C10_penalize_liars_frame_witness :
    QInv [(("A" : Ident), 5)] [(10, [("A", 5)])] ∧
    (∃ r, penalize_liars 4 [("B", 3)] [(10, [("A", 5)])] [("A", 5)] [] 0 = some r ∧
      (∀ j, NotTouched [("B", 3)] [("A", 5)] j →
        lookupKey j r.identities = lookupKey j [(("A" : Ident), 5)]) ∧
      List.Forall₂ (PacketFrame (NotTouched [("B", 3)] [("A", 5)]))
        [(10, [("A", 5)])] r.reputation_expiry ∧
      (∃ new, r.deltas = [] ++ new ∧
        ∀ d ∈ new, (∃ k, (d.1, k) ∈ [(("B" : Ident), 3)]) ∧
          d.1 ∈ keysOf [(("A" : Ident), 5)])) :=
  ⟨by decide, claim_C10_penalize_liars_frame 4 [("B", 3)] [(10, [("A", 5)])]
    [("A", 5)] [] 0 (by decide)⟩

/-- C4 counterexample: with stored epoch 0 (a fresh engine) the gap guard
`if self.epoch and epoch > self.epoch + 1` is false, so no phantom cycle
runs and no snapshot row for epoch 1 is emitted — the only snapshot row is
the live one at epoch 3, although the claim as stated demands a phantom
row at `stored_epoch + 1 = 1`. -/
theorem claim_C4_counterexample :
    stateEpoch0Due.epoch = 0 ∧ stateEpoch0Due.epoch + 1 < 3 ∧
    (update stateEpoch0Due 3 [] [] [] []).map
      (fun r => r.2.snapshots.map (·.1)) = some [3] :=
  ⟨rfl, by decide, by decide⟩

/-- C4 (amended): for every *non-zero* stored epoch `e0` and call with
`e > e0 + 1`, the engine first fabricates a phantom expiry cycle at
`e0 + 1`: all packets whose threshold is at most the current witnessing-act
counter are drained, the expired amount is added to `leftover_reputation`,
zero-reputation identities are removed, and the first emitted snapshot row
is `(e0 + 1, cleaned identities)`, before the live update at `e`. -/
theorem claim_C4_amended_phantom_cycle (s : TRS) (e : Nat)
    (rev hon err li : List (Ident × Nat))
    (hinv : QInv s.identities s.reputation_expiry)
    (h0 : s.epoch ≠ 0) (hgap : s.epoch + 1 < e) :
    ∃ s2, expire_reputation_in_next_epoch s = some s2 ∧
      s2.reputation_expiry =
        s.reputation_expiry.dropWhile (duePred s.witnessing_acts) ∧
      s2.leftover_reputation = s.leftover_reputation +
        queueSum (s.reputation_expiry.takeWhile (duePred s.witnessing_acts)) ∧
      (∀ p ∈ clean s2.identities, 0 < p.2) ∧
      (∀ j, getD (clean s2.identities) j 0 =
        entrySum j (s.reputation_expiry.dropWhile (duePred s.witnessing_acts))) ∧
      (∃ s' out rest, update s e rev hon err li = some (s', out) ∧
        out.snapshots = (s.epoch + 1, clean s2.identities) :: rest) := by
  obtain ⟨ids1, ds1, heq1, hinv1, hk1, hs1, hpt1⟩ :=
    expire_reputation_spec (s.epoch + 1) s.witnessing_acts s.reputation_expiry
      s.identities s.insert_reputation_differences hinv
  have hnd1 : (keysOf ids1).Nodup := hinv1.2.2.1
  have hphantom : expire_reputation_in_next_epoch s =
      some { s with
        reputation_expiry := s.reputation_expiry.dropWhile (duePred s.witnessing_acts)
        identities := ids1
        insert_reputation_differences := ds1
        leftover_reputation := s.leftover_reputation +
          queueSum (s.reputation_expiry.takeWhile (duePred s.witnessing_acts)) } := by
    simp only [expire_reputation_in_next_epoch, heq1]
  refine ⟨_, hphantom, rfl, rfl, ?_, ?_, ?_⟩
  · exact clean_pos
  · intro j
    show getD (clean ids1) j 0 = _
    rw [clean_getD hnd1]
    exact hinv1.balance j
  · obtain ⟨s3, out, heql, _, _, _, _⟩ :=
      update_live_spec
        { s with
          reputation_expiry := s.reputation_expiry.dropWhile (duePred s.witnessing_acts)
          identities := clean ids1
          insert_reputation_differences := ds1
          leftover_reputation := s.leftover_reputation +
            queueSum (s.reputation_expiry.takeWhile (duePred s.witnessing_acts)) }
        e rev hon err li (QInv.clean_inv hinv1)
    refine ⟨s3, { out with
        snapshots := (s.epoch + 1, clean ids1) :: out.snapshots },
      out.snapshots, ?_, rfl⟩
    rw [update, if_pos ⟨h0, hgap⟩, hphantom]
    simp only [heql]

/-- C4 witness: the amended claim at a concrete epoch-1 state holding a
due packet, updated at epoch 3. -/
theorem claim_C4_amended_phantom_cycle_witness :
    QInv stateEpoch1Due.identities stateEpoch1Due.reputation_expiry ∧
    stateEpoch1Due.epoch ≠ 0 ∧ stateEpoch1Due.epoch + 1 < 3 ∧
    (∃ s2, expire_reputation_in_next_epoch stateEpoch1Due = some s2 ∧
      s2.reputation_expiry =
        stateEpoch1Due.reputation_expiry.dropWhile
          (duePred stateEpoch1Due.witnessing_acts) ∧
      s2.leftover_reputation = stateEpoch1Due.leftover_reputation +
        queueSum (stateEpoch1Due.reputation_expiry.takeWhile
          (duePred stateEpoch1Due.witnessing_acts)) ∧
      (∀ p ∈ clean s2.identities, 0 < p.2) ∧
      (∀ j, getD (clean s2.identities) j 0 =
        entrySum j (stateEpoch1Due.reputation_expiry.dropWhile
          (duePred stateEpoch1Due.witnessing_acts))) ∧
      (∃ s' out rest, update stateEpoch1Due 3 [] [] [] [] = some (s', out) ∧
        out.snapshots = (stateEpoch1Due.epoch + 1, clean s2.identities) :: rest)) :=
  ⟨by decide, by decide, by decide,
    claim_C4_amended_phantom_cycle stateEpoch1Due 3 [] [] [] [] (by decide)
      (by decide) (by decide)⟩

/-- C7: `calculate_eligibilities` does not return an eligibility map for
every non-empty, positive identity map — on the singleton map `{A: 5}` the
source raises ZeroDivisionError (the slope `m = -k / (len - 1)` divides by
`len - 1 = 0`), modelled as `none`, where the spec's N = 1 edge case
expects the single identity to receive eligibility `(S+1)/(S+1) = 1`. -/
theorem claim_C7_singleton_divide_by_zero :
    calculate_eligibilities [("A", 5)] = none ∧
    ([(("A" : Ident), 5)] ≠ ([] : List (Ident × Nat))) ∧ 0 < 5 :=
  ⟨by decide, by decide, by decide⟩
